import Mathlib

/-!
# goStack: two concurrent stacks of integers

A shallow embedding of `lockStack/lockStack.go` and `occStack/occStack.go`.

Both packages build a singly linked list of heap cells `Node{next, val}` and keep a
`head` pointer to the first cell.  The embedding keeps the Go heap explicit: a heap is
the list of all cells allocated so far, a pointer is `nil` or the index of a cell, and
`&Node{..}` appends one cell and yields its index (an address is never handed out twice,
which is what the garbage collector guarantees for any address still held by a thread).

* `lockStack` embeds the three methods as state transformers; a method body runs between
  `mutex.Lock()` and the deferred `mutex.Unlock()`, so it is one atomic transition.
* `occStack` embeds the atomic primitives on `head`, the retry loops (with fuel), and a
  small-step machine in which every thread executes one call and a scheduler interleaves
  the atomic steps (head load, compare-and-swap) of the threads.
* `testDriver` embeds the two counting loops of `benchmark` and the body of a worker
  goroutine of `testDriver/driver.go` as a function of the random numbers it draws.
-/

/-- A Go `*Node`: `none` is `nil`, `some a` is the address of the cell with index `a`. -/
abbrev Ptr := Option Nat

/-- The struct `Node { next *Node; val int }`, declared identically in both packages. -/
structure Node where
  next : Ptr
  val : Int
deriving DecidableEq

/-- The Go heap restricted to `Node` cells: cell `a` is the `a`-th allocated node. -/
abbrev Heap := List Node

namespace Heap

/-- Field access through a non-nil pointer.  An address outside the heap never occurs in
a state built by the operations (`Heap.Valid`, `Heap.Closed`); the filler cell is only
there to keep the function total. -/
def deref (h : Heap) (a : Nat) : Node := h.getD a ⟨none, 0⟩

/-- The expression `&Node{next, val}`: a fresh cell and its address. -/
def alloc (h : Heap) (n : Node) : Nat × Heap := (h.length, h ++ [n])

/-- Addresses met when following `next` from `p`, at most `fuel` of them. -/
def chain (h : Heap) : Nat → Ptr → List Nat
  | 0, _ => []
  | _ + 1, none => []
  | fuel + 1, some a => a :: chain h fuel (h.deref a).next

/-- The values stored along the chain from `p`, top of the stack first. -/
def contents (h : Heap) (p : Ptr) : List Int :=
  (h.chain h.length p).map fun a => (h.deref a).val

/-- Every `next` field points to a cell allocated earlier than its own cell. -/
def Closed (h : Heap) : Prop :=
  ∀ a b, (h.deref a).next = some b → b < a

/-- A pointer is nil or the address of an allocated cell. -/
def Valid (h : Heap) (p : Ptr) : Prop :=
  ∀ a, p = some a → a < h.length

end Heap

/-- One call of the interface `ConcurrentStack` of `testDriver/driver.go`. -/
inductive Call where
  | push (value : Int)
  | pop
  | peek
deriving DecidableEq

/-! ## lockStack -/

namespace lockStack

/-- The struct `LockStack { head *Node; mutex sync.RWMutex }` together with the heap its
nodes live in.  The mutex is free before and after every call of a sequential run and is
not represented. -/
structure LockStack where
  mem : Heap
  head : Ptr
deriving DecidableEq

/-- The value `new(lockStack.LockStack)`. -/
def empty : LockStack := ⟨[], none⟩

/-- `func (curStack *LockStack) Push(value int)`. -/
def Push (curStack : LockStack) (value : Int) : LockStack :=
  let (newHead, mem) := curStack.mem.alloc ⟨curStack.head, value⟩
  { mem := mem, head := some newHead }

/-- `func (curStack *LockStack) Pop() int`. -/
def Pop (curStack : LockStack) : Int × LockStack :=
  let value : Int := -1
  match curStack.head with
  | some a =>
    let value := (curStack.mem.deref a).val
    (value, { curStack with head := (curStack.mem.deref a).next })
  | none => (value, curStack)

/-- `func (curStack *LockStack) Peek() int`. -/
def Peek (curStack : LockStack) : Int × LockStack :=
  let value : Int := -1
  match curStack.head with
  | some a =>
    let value := (curStack.mem.deref a).val
    (value, curStack)
  | none => (value, curStack)

/-- The values on the stack, top first. -/
def contents (s : LockStack) : List Int := s.mem.contents s.head

/-- The states the methods keep within: `head` and every `next` are nil or point to an
allocated cell, and every `next` points to an older cell. -/
def WF (s : LockStack) : Prop := s.mem.Closed ∧ s.mem.Valid s.head

/-- One interface call; `Push` returns nothing. -/
def call (s : LockStack) : Call → Option Int × LockStack
  | .push v => (none, Push s v)
  | .pop => ((Pop s).1, (Pop s).2)
  | .peek => ((Peek s).1, (Peek s).2)

/-- A sequence of calls executed one after another: the returned values and the final
stack. -/
def run (s : LockStack) : List Call → List (Option Int) × LockStack
  | [] => ([], s)
  | c :: cs =>
    let r := call s c
    let rest := run r.2 cs
    (r.1 :: rest.1, rest.2)

end lockStack

/-! ## occStack -/

namespace occStack

/-- The struct `OccStack { head *Node }` together with the heap its nodes live in. -/
structure OccStack where
  mem : Heap
  head : Ptr
deriving DecidableEq

/-- The value `new(occStack.OccStack)`. -/
def empty : OccStack := ⟨[], none⟩

/-- `atomic.LoadPointer(&curStack.head)`. -/
def LoadPointer (s : OccStack) : Ptr := s.head

/-- `atomic.CompareAndSwapPointer(&curStack.head, old, new)`: pointers are compared by
address. -/
def CompareAndSwapPointer (s : OccStack) (old new : Ptr) : Bool × OccStack :=
  if s.head = old then (true, { s with head := new }) else (false, s)

/-- `&Node{next, val}` on the heap of the stack. -/
def newNode (s : OccStack) (n : Node) : Nat × OccStack :=
  let (a, mem) := s.mem.alloc n
  (a, { s with mem := mem })

/-- `func (curStack *OccStack) Push(value int)`; `fuel` bounds the iterations of the
`for` loop and `none` means the bound was reached. -/
def Push : Nat → OccStack → Int → Option OccStack
  | 0, _, _ => none
  | fuel + 1, s, value =>
    let curHead := LoadPointer s
    let (newHead, s) := newNode s ⟨curHead, value⟩
    let (result, s) := CompareAndSwapPointer s curHead (some newHead)
    if !result then Push fuel s value else some s

/-- `func (curStack *OccStack) Pop() int`, with fuel as in `Push`. -/
def Pop : Nat → OccStack → Option (Int × OccStack)
  | 0, _ => none
  | fuel + 1, s =>
    let value : Int := -1
    match LoadPointer s with
    | some a =>
      let value := (s.mem.deref a).val
      let (result, s) := CompareAndSwapPointer s (some a) (s.mem.deref a).next
      if !result then Pop fuel s else some (value, s)
    | none => some (value, s)

/-- `func (curStack *OccStack) Peek() int`. -/
def Peek (s : OccStack) : Int × OccStack :=
  let value : Int := -1
  match LoadPointer s with
  | some a =>
    let value := (s.mem.deref a).val
    (value, s)
  | none => (value, s)

/-- The values on the stack, top first. -/
def contents (s : OccStack) : List Int := s.mem.contents s.head

/-- The states the methods keep within, as for `lockStack.WF`. -/
def WF (s : OccStack) : Prop := s.mem.Closed ∧ s.mem.Valid s.head

/-- The `LockStack` with the same heap and head. -/
def toLock (s : OccStack) : lockStack.LockStack := ⟨s.mem, s.head⟩

/-- One interface call with loop bound `fuel`. -/
def call (fuel : Nat) (s : OccStack) : Call → Option (Option Int × OccStack)
  | .push v => (Push fuel s v).map fun s => (none, s)
  | .pop => (Pop fuel s).map fun r => (some r.1, r.2)
  | .peek => some (some (Peek s).1, (Peek s).2)

/-- A sequence of calls executed one after another, each with loop bound `fuel`. -/
def run (fuel : Nat) (s : OccStack) : List Call → Option (List (Option Int) × OccStack)
  | [] => some ([], s)
  | c :: cs =>
    match call fuel s c with
    | none => none
    | some r =>
      match run fuel r.2 cs with
      | none => none
      | some rest => some (r.1 :: rest.1, rest.2)

/-! ### Interleaved execution

Each thread executes one call.  Its atomic steps are the ones that touch the shared
`head`: the load at the top of the loop body (together with the thread-local work that
follows it, up to the next access of `head`) and the compare-and-swap. -/

/-- Control point and local variables of a thread executing one call. -/
inductive Thread where
  /-- `Push(value)` at the top of the loop body. -/
  | pushLoad (value : Int)
  /-- `Push(value)` with `curHead` loaded and `newHead` built, before the CAS. -/
  | pushCas (value : Int) (curHead : Ptr) (newHead : Nat)
  /-- `Push(value)` returned; `newHead` is the node its CAS installed. -/
  | pushDone (value : Int) (curHead : Ptr) (newHead : Nat)
  /-- `Pop()` at the top of the loop body. -/
  | popLoad
  /-- `Pop()` with a non-nil `curHead` loaded and `value` read, before the CAS. -/
  | popCas (curHead : Nat) (value : Int)
  /-- `Pop()` returned `value`; `curHead` is the last loaded head. -/
  | popDone (curHead : Ptr) (value : Int)
  /-- `Peek()` before its load. -/
  | peekLoad
  /-- `Peek()` returned `value`. -/
  | peekDone (curHead : Ptr) (value : Int)
deriving DecidableEq

namespace Thread

/-- A thread at the entry of a call. -/
def start : Call → Thread
  | .push v => pushLoad v
  | .pop => popLoad
  | .peek => peekLoad

/-- The call a thread executes. -/
def call : Thread → Call
  | pushLoad v | pushCas v _ _ | pushDone v _ _ => .push v
  | popLoad | popCas _ _ | popDone _ _ => .pop
  | peekLoad | peekDone _ _ => .peek

/-- Whether the call has returned. -/
def done : Thread → Bool
  | pushDone _ _ _ | popDone _ _ | peekDone _ _ => true
  | _ => false

/-- One atomic step of a thread on the shared stack. -/
def step (th : Thread) (s : OccStack) : Thread × OccStack :=
  match th with
  | pushLoad value =>
    let curHead := LoadPointer s
    let (newHead, s) := newNode s ⟨curHead, value⟩
    (pushCas value curHead newHead, s)
  | pushCas value curHead newHead =>
    let (result, s) := CompareAndSwapPointer s curHead (some newHead)
    if !result then (pushLoad value, s) else (pushDone value curHead newHead, s)
  | popLoad =>
    let value : Int := -1
    match LoadPointer s with
    | some a => (popCas a (s.mem.deref a).val, s)
    | none => (popDone none value, s)
  | popCas a value =>
    let (result, s) := CompareAndSwapPointer s (some a) (s.mem.deref a).next
    if !result then (popLoad, s) else (popDone (some a) value, s)
  | peekLoad =>
    let value : Int := -1
    match LoadPointer s with
    | some a => (peekDone (some a) (s.mem.deref a).val, s)
    | none => (peekDone none value, s)
  | th => (th, s)

/-- The node a thread has built for its `Push`, linked or not. -/
def built : Thread → Option Nat
  | pushCas _ _ newHead | pushDone _ _ newHead => some newHead
  | _ => none

/-- The node a completed `Push` linked in. -/
def pushedNode : Thread → Option Nat
  | pushDone _ _ newHead => some newHead
  | _ => none

/-- The value a completed `Push` pushed. -/
def pushedVal : Thread → Option Int
  | pushDone value _ _ => some value
  | _ => none

/-- The node a successful `Pop` (one whose CAS succeeded) detached. -/
def poppedNode : Thread → Option Nat
  | popDone (some a) _ => some a
  | _ => none

/-- The value a successful `Pop` returned. -/
def poppedVal : Thread → Option Int
  | popDone (some _) value => some value
  | _ => none

end Thread

/-- The shared stack and the threads operating on it. -/
structure Sys where
  stack : OccStack
  threads : List Thread
deriving DecidableEq

namespace Sys

/-- An empty stack and one thread per call, each at the entry of its call. -/
def init (calls : List Call) : Sys := ⟨empty, calls.map Thread.start⟩

/-- The scheduler lets thread `t` take its next atomic step. -/
def step (σ : Sys) (t : Nat) : Sys :=
  match σ.threads[t]? with
  | none => σ
  | some th => ⟨(th.step σ.stack).2, σ.threads.set t (th.step σ.stack).1⟩

/-- An interleaving: the threads take steps in the order the schedule lists them. -/
def run (σ : Sys) (sched : List Nat) : Sys := sched.foldl step σ

/-- The states some interleaving of the calls reaches from the empty stack. -/
def Reachable (calls : List Call) (σ : Sys) : Prop :=
  ∃ sched : List Nat, σ = (init calls).run sched

/-- The addresses on the chain from `head`. -/
def chain (σ : Sys) : List Nat := σ.stack.mem.chain σ.stack.mem.length σ.stack.head

def built (σ : Sys) : List Nat := σ.threads.filterMap Thread.built
def pushedNodes (σ : Sys) : List Nat := σ.threads.filterMap Thread.pushedNode
def pushedVals (σ : Sys) : List Int := σ.threads.filterMap Thread.pushedVal
def poppedNodes (σ : Sys) : List Nat := σ.threads.filterMap Thread.poppedNode
def poppedVals (σ : Sys) : List Int := σ.threads.filterMap Thread.poppedVal

end Sys

/-- What the local variables of a thread say about the heap: a built node is allocated
and holds the loaded head and the pushed value; the value a `Pop` has read is the `val` of
the allocated node it loaded; a `Pop` that loaded nil holds the marker. -/
def Thread.Ok (mem : Heap) : Thread → Prop
  | .pushCas v c n | .pushDone v c n => n < mem.length ∧ mem.deref n = ⟨c, v⟩
  | .popCas a v | .popDone (some a) v => a < mem.length ∧ v = (mem.deref a).val
  | .popDone none v => v = -1
  | _ => True

/-- The invariant of the interleaved execution. -/
structure Sys.Inv (σ : Sys) : Prop where
  closed : σ.stack.mem.Closed
  valid : σ.stack.mem.Valid σ.stack.head
  nodup : σ.built.Nodup
  ok : ∀ th ∈ σ.threads, th.Ok σ.stack.mem
  linked : (σ.chain ++ σ.poppedNodes).Perm σ.pushedNodes

/-- The value a call pushes. -/
def pushArg : Call → Option Int
  | .push v => some v
  | _ => none

end occStack

/-! ## The reference stack of the specification -/

/-- The reference list of the LIFO law: `Push` conses, `Pop` drops the first element and
returns it, `Peek` returns it; the empty-marker `-1` stands for "none". -/
def refCall (l : List Int) : Call → Option Int × List Int
  | .push v => (none, v :: l)
  | .pop => (some (l.headD (-1)), l.tail)
  | .peek => (some (l.headD (-1)), l)

/-- The reference list run over a sequence of calls. -/
def refRun (l : List Int) : List Call → List (Option Int) × List Int
  | [] => ([], l)
  | c :: cs =>
    let r := refCall l c
    let rest := refRun r.2 cs
    (r.1 :: rest.1, rest.2)

/-! ## Further notions for the invariants -/

/-- The pointer reached from `p` after following `next` `k` times (nil stays nil). -/
def Heap.after (h : Heap) : Nat → Ptr → Ptr
  | 0, p => p
  | _ + 1, none => none
  | k + 1, some a => Heap.after h k (h.deref a).next

/-- The pointer a thread that stands before its CAS expects in `head`: the `curHead` it
loaded.  Threads at other control points expect nothing. -/
def occStack.Thread.expected : occStack.Thread → Option Ptr
  | .pushCas _ curHead _ => some curHead
  | .popCas curHead _ => some (some curHead)
  | _ => none

/-- Thread `u` stands before a CAS whose expected pointer is the current `head`, so that
its next step is a successful CAS. -/
def occStack.Sys.CasSucceeds (σ : occStack.Sys) (u : Nat) : Prop :=
  ∃ th, σ.threads[u]? = some th ∧ th.expected = some σ.stack.head

/-! ## testDriver: the benchmark -/

namespace testDriver

/-- Two's complement wrap-around of a Go `int` / `int64` result. -/
def wrap64 (x : Int) : Int := (x + 2 ^ 63) % 2 ^ 64 - 2 ^ 63

/-- The values `rand.Intn(n)` of `math/rand` can return: the half-open interval `[0, n)`. -/
def Intn (n : Nat) : List Nat := List.range n

/-- The values of `i` for which the body of `for i := 0; i <= dop; i++` runs, the loop
variable starting at `i`; `fuel` bounds the iterations. -/
def forUpTo (dop : Int) : Nat → Int → List Int
  | 0, _ => []
  | fuel + 1, i => if i ≤ dop then i :: forUpTo dop fuel (wrap64 (i + 1)) else []

/-- The worker goroutines `benchmark` starts: one `go func() {...}()` per iteration of its
first loop. -/
def spawned (dop : Int) (fuel : Nat) : List Int := forUpTo dop fuel 0

/-- The second loop of `benchmark`, `for i := 0; i <= dop; i++ { throughput += <-resultChan }`.
`chan` lists the values the workers send on `resultChan` in the order they arrive; a
receive on the drained channel blocks for ever, as does running out of `fuel` (`none`). -/
def collect (dop : Int) : Nat → Int → Int → List Int → Option Int
  | 0, _, _, _ => none
  | fuel + 1, i, throughput, chan =>
    if i ≤ dop then
      match chan with
      | [] => none
      | x :: rest => collect dop fuel (wrap64 (i + 1)) (wrap64 (throughput + x)) rest
    else some throughput

/-- The value `benchmark` returns when the workers it started send `chan`. -/
def benchmark (dop : Int) (fuel : Nat) (chan : List Int) : Option Int :=
  collect dop fuel 0 0 chan

/-- The local variables of a worker goroutine. -/
structure Worker where
  curThroughput : Int
  addedStackSize : Int
deriving DecidableEq

/-- A worker when its goroutine starts. -/
def Worker.start : Worker := ⟨0, 0⟩

/-- The random numbers of one iteration: `rwRand := rand.Intn(99)` and, drawn only on the
write path, `pushPopRand := rand.Intn(1)`. -/
structure Draw where
  rwRand : Nat
  pushPopRand : Nat
deriving DecidableEq

/-- Both numbers are values their `rand.Intn` call can return. -/
def Draw.InRange (d : Draw) : Prop := d.rwRand ∈ Intn 99 ∧ d.pushPopRand ∈ Intn 1

/-- The test `rwRand >= writePercent-1` that selects the read path. -/
def isRead (writePercent : Int) (rwRand : Nat) : Bool :=
  decide ((rwRand : Int) ≥ wrap64 (writePercent - 1))

/-- The draws of `rand.Intn(99)` for which a worker takes the write path. -/
def writeDraws (writePercent : Int) : List Nat :=
  (Intn 99).filter fun r => !isRead writePercent r

/-- One iteration of the worker loop after the termination check: the call made on the
stack and the new local variables. -/
def Worker.iter (writePercent : Int) (w : Worker) (d : Draw) : Call × Worker :=
  let (c, w) :=
    if isRead writePercent d.rwRand then
      (Call.peek, w)
    else if d.pushPopRand = 0 ∧ w.addedStackSize > 0 then
      (Call.pop, { w with addedStackSize := wrap64 (w.addedStackSize - 1) })
    else
      (Call.push 1, { w with addedStackSize := wrap64 (w.addedStackSize + 1) })
  (c, { w with curThroughput := wrap64 (w.curThroughput + 1) })

/-- The worker loop over the iterations it completes before the terminate channel is
closed: the calls made on the stack, in order, and the final local variables. -/
def Worker.run (writePercent : Int) : Worker → List Draw → List Call × Worker
  | w, [] => ([], w)
  | w, d :: ds =>
    let r := Worker.iter writePercent w d
    let rest := Worker.run writePercent r.2 ds
    (r.1 :: rest.1, rest.2)

/-- Whether a call is a write (`Push` or `Pop`). -/
def isWrite : Call → Bool
  | .peek => false
  | _ => true

end testDriver

/-! ## Heap lemmas -/

namespace Heap

theorem deref_append_lt (h : Heap) (n : Node) {a : Nat} (ha : a < h.length) :
    deref (h ++ [n]) a = deref h a := by
  simp [deref, List.getD, List.getElem?_append_left ha]

theorem deref_append_length (h : Heap) (n : Node) : deref (h ++ [n]) h.length = n := by
  simp [deref, List.getD]

theorem deref_ge (h : Heap) {a : Nat} (ha : h.length ≤ a) : deref h a = ⟨none, 0⟩ := by
  simp [deref, List.getD, List.getElem?_eq_none ha]

theorem closed_nil : Closed [] := by
  intro a b hb
  simp [deref] at hb

theorem valid_none (h : Heap) : Valid h none := by
  intro a ha
  cases ha

/-- Allocating a cell whose `next` is a valid pointer keeps the heap closed. -/
theorem closed_alloc {h : Heap} (hc : Closed h) {p : Ptr} (hp : Valid h p) (v : Int) :
    Closed (h ++ [⟨p, v⟩]) := by
  intro a b hb
  rcases Nat.lt_trichotomy a h.length with ha | ha | ha
  · rw [deref_append_lt h _ ha] at hb
    exact hc a b hb
  · subst ha
    rw [deref_append_length] at hb
    exact hp b hb
  · rw [deref_ge] at hb
    · cases hb
    · simp; omega

theorem valid_append {h : Heap} {p : Ptr} (hp : Valid h p) (n : Node) : Valid (h ++ [n]) p := by
  intro a ha
  have := hp a ha
  simp; omega

theorem valid_next {h : Heap} (hc : Closed h) {a : Nat} (ha : a < h.length) :
    Valid h (deref h a).next := by
  intro b hb
  have := hc a b hb
  omega

/-- In a closed heap the chain from `a` has at most `a + 1` cells: more fuel changes
nothing. -/
theorem chain_fuel {h : Heap} (hc : Closed h) :
    ∀ (a f g : Nat), a < f → a < g → chain h f (some a) = chain h g (some a) := by
  intro a
  induction a using Nat.strong_induction_on with
  | _ a ih =>
    intro f g hf hg
    obtain ⟨f, rfl⟩ : ∃ k, f = k + 1 := ⟨f - 1, by omega⟩
    obtain ⟨g, rfl⟩ : ∃ k, g = k + 1 := ⟨g - 1, by omega⟩
    simp only [chain]
    congr 1
    cases hn : (deref h a).next with
    | none => cases f <;> cases g <;> rfl
    | some b =>
      have hb := hc a b hn
      exact ih b hb f g (by omega) (by omega)

theorem chain_none (h : Heap) (f : Nat) : chain h f none = [] := by
  cases f <;> rfl

/-- Fuel independence for any valid pointer. -/
theorem chain_fuel_ptr {h : Heap} (hc : Closed h) {p : Ptr} {f g : Nat}
    (hf : ∀ a, p = some a → a < f) (hg : ∀ a, p = some a → a < g) :
    chain h f p = chain h g p := by
  cases p with
  | none => simp [chain_none]
  | some a => exact chain_fuel hc a f g (hf a rfl) (hg a rfl)

/-- The chain from `a` in a closed heap visits `a` and then only older cells. -/
theorem chain_lt {h : Heap} (hc : Closed h) :
    ∀ (f a x : Nat), x ∈ chain h f (deref h a).next → x < a := by
  intro f
  induction f with
  | zero => intro a x hx; simp [chain] at hx
  | succ f ih =>
    intro a x hx
    cases hn : (deref h a).next with
    | none => rw [hn] at hx; simp [chain] at hx
    | some b =>
      rw [hn] at hx
      have hb := hc a b hn
      simp only [chain, List.mem_cons] at hx
      rcases hx with rfl | hx
      · exact hb
      · have := ih b x hx
        omega

theorem chain_le {h : Heap} (hc : Closed h) {f a x : Nat} (hx : x ∈ chain h f (some a)) :
    x ≤ a := by
  cases f with
  | zero => simp [chain] at hx
  | succ f =>
    simp only [chain, List.mem_cons] at hx
    rcases hx with rfl | hx
    · exact Nat.le_refl _
    · exact Nat.le_of_lt (chain_lt hc f a x hx)

/-- The chain of a closed heap never visits a cell twice. -/
theorem chain_nodup {h : Heap} (hc : Closed h) : ∀ (f : Nat) (p : Ptr), (chain h f p).Nodup := by
  intro f
  induction f with
  | zero => intro p; simp [chain]
  | succ f ih =>
    intro p
    cases p with
    | none => simp [chain]
    | some a =>
      simp only [chain, List.nodup_cons]
      refine ⟨fun hmem => ?_, ih _⟩
      have := chain_lt hc f a a hmem
      omega

/-- A chain that starts at an allocated cell is not affected by a later allocation. -/
theorem chain_append {h : Heap} (hc : Closed h) (n : Node) :
    ∀ (f : Nat) (p : Ptr), Valid h p → chain (h ++ [n]) f p = chain h f p := by
  intro f
  induction f with
  | zero => intro p _; rfl
  | succ f ih =>
    intro p hp
    cases p with
    | none => rfl
    | some a =>
      have ha := hp a rfl
      simp only [chain, deref_append_lt h n ha]
      congr 1
      exact ih _ (valid_next hc ha)

theorem chain_valid {h : Heap} (hc : Closed h) {f : Nat} {p : Ptr} (hp : Valid h p) {x : Nat}
    (hx : x ∈ chain h f p) : x < h.length := by
  cases p with
  | none => simp [chain_none] at hx
  | some a =>
    have := chain_le hc hx
    have := hp a rfl
    omega

/-- Contents after linking a fresh cell in front of a valid `head`. -/
theorem contents_alloc {h : Heap} (hc : Closed h) {p : Ptr} (hp : Valid h p) (v : Int) :
    contents (h ++ [⟨p, v⟩]) (some h.length) = v :: contents h p := by
  have hlen : (h ++ [(⟨p, v⟩ : Node)]).length = h.length + 1 := by simp
  unfold contents
  rw [hlen]
  simp only [chain, deref_append_length, List.map_cons]
  congr 1
  rw [chain_append hc _ _ _ hp]
  apply List.map_congr_left
  intro x hx
  rw [deref_append_lt h _ (chain_valid hc hp hx)]

/-- Contents after advancing `head` past its cell. -/
theorem contents_next {h : Heap} (hc : Closed h) {a : Nat} (ha : a < h.length) :
    contents h (some a) = (deref h a).val :: contents h (deref h a).next := by
  unfold contents
  obtain ⟨k, hk⟩ : ∃ k, h.length = k + 1 := ⟨h.length - 1, by omega⟩
  rw [hk]
  simp only [chain, List.map_cons]
  congr 2
  apply chain_fuel_ptr hc
  · intro b hb; have := hc a b hb; omega
  · intro b hb; have := hc a b hb; omega

/-- Contents are not affected by a later allocation. -/
theorem contents_append {h : Heap} (hc : Closed h) {p : Ptr} (hp : Valid h p) (n : Node) :
    contents (h ++ [n]) p = contents h p := by
  have hlen : (h ++ [n]).length = h.length + 1 := by simp
  unfold contents
  rw [hlen, chain_append hc _ _ _ hp,
    chain_fuel_ptr hc (f := h.length + 1) (g := h.length) (fun a ha => by have := hp a ha; omega) hp]
  apply List.map_congr_left
  intro x hx
  rw [deref_append_lt h _ (chain_valid hc hp hx)]

theorem contents_none (h : Heap) : contents h none = [] := by
  simp [contents, chain_none]

end Heap

/-! ## Sequential behaviour of `lockStack` -/

namespace lockStack

theorem Push_eq (s : LockStack) (v : Int) :
    Push s v = ⟨s.mem ++ [⟨s.head, v⟩], some s.mem.length⟩ := rfl

theorem Pop_none {s : LockStack} (h : s.head = none) : Pop s = (-1, s) := by
  simp [Pop, h]

theorem Pop_some {s : LockStack} {a : Nat} (h : s.head = some a) :
    Pop s = ((s.mem.deref a).val, ⟨s.mem, (s.mem.deref a).next⟩) := by
  simp [Pop, h]

theorem Peek_none {s : LockStack} (h : s.head = none) : Peek s = (-1, s) := by
  simp [Peek, h]

theorem Peek_some {s : LockStack} {a : Nat} (h : s.head = some a) :
    Peek s = ((s.mem.deref a).val, s) := by
  simp [Peek, h]

theorem wf_empty : WF empty := ⟨Heap.closed_nil, Heap.valid_none _⟩

theorem wf_Push {s : LockStack} (hs : WF s) (v : Int) : WF (Push s v) := by
  refine ⟨Heap.closed_alloc hs.1 hs.2 v, ?_⟩
  intro a ha
  simp only [Push_eq, Option.some.injEq] at ha
  subst ha
  show s.mem.length < (s.mem ++ [_]).length
  simp

theorem wf_Pop {s : LockStack} (hs : WF s) : WF (Pop s).2 := by
  cases h : s.head with
  | none => rw [Pop_none h]; exact hs
  | some a =>
    rw [Pop_some h]
    have ha : a < s.mem.length := hs.2 a h
    refine ⟨hs.1, ?_⟩
    intro b hb
    have := hs.1 a b hb
    show b < s.mem.length
    omega

theorem wf_Peek {s : LockStack} (hs : WF s) : WF (Peek s).2 := by
  cases h : s.head with
  | none => rw [Peek_none h]; exact hs
  | some a => rw [Peek_some h]; exact hs

theorem contents_Push {s : LockStack} (hs : WF s) (v : Int) :
    contents (Push s v) = v :: contents s :=
  Heap.contents_alloc hs.1 hs.2 v

theorem contents_of_head_none {s : LockStack} (h : s.head = none) : contents s = [] := by
  simp [contents, h, Heap.contents_none]

theorem contents_of_head_some {s : LockStack} (hs : WF s) {a : Nat} (h : s.head = some a) :
    contents s = (s.mem.deref a).val :: s.mem.contents (s.mem.deref a).next := by
  unfold contents
  rw [h]
  exact Heap.contents_next hs.1 (hs.2 a h)

/-- Pop returns the first element of the contents, or the marker, and drops it. -/
theorem Pop_contents {s : LockStack} (hs : WF s) :
    (Pop s).1 = (contents s).headD (-1) ∧ contents (Pop s).2 = (contents s).tail := by
  cases h : s.head with
  | none => rw [Pop_none h, contents_of_head_none h]; exact ⟨rfl, rfl⟩
  | some a => rw [Pop_some h, contents_of_head_some hs h]; exact ⟨rfl, rfl⟩

theorem Peek_contents {s : LockStack} (hs : WF s) :
    (Peek s).1 = (contents s).headD (-1) ∧ (Peek s).2 = s := by
  cases h : s.head with
  | none => rw [Peek_none h, contents_of_head_none h]; exact ⟨rfl, rfl⟩
  | some a => rw [Peek_some h, contents_of_head_some hs h]; exact ⟨rfl, rfl⟩

theorem wf_call {s : LockStack} (hs : WF s) (c : Call) : WF (call s c).2 := by
  cases c with
  | push v => exact wf_Push hs v
  | pop => exact wf_Pop hs
  | peek => exact wf_Peek hs

/-- One call does to the contents what the reference list does. -/
theorem call_ref {s : LockStack} (hs : WF s) (c : Call) :
    (call s c).1 = (refCall (contents s) c).1 ∧
      contents (call s c).2 = (refCall (contents s) c).2 := by
  cases c with
  | push v => exact ⟨rfl, contents_Push hs v⟩
  | pop =>
    obtain ⟨h1, h2⟩ := Pop_contents hs
    exact ⟨congrArg some h1, h2⟩
  | peek =>
    obtain ⟨h1, h2⟩ := Peek_contents hs
    exact ⟨congrArg some h1, congrArg contents h2⟩

theorem wf_run {s : LockStack} (hs : WF s) (cs : List Call) : WF (run s cs).2 := by
  induction cs generalizing s with
  | nil => exact hs
  | cons c cs ih => exact ih (wf_call hs c)

theorem run_ref {s : LockStack} (hs : WF s) (cs : List Call) :
    (run s cs).1 = (refRun (contents s) cs).1 ∧
      contents (run s cs).2 = (refRun (contents s) cs).2 := by
  induction cs generalizing s with
  | nil => exact ⟨rfl, rfl⟩
  | cons c cs ih =>
    obtain ⟨h1, h2⟩ := call_ref hs c
    obtain ⟨h3, h4⟩ := ih (wf_call hs c)
    simp only [run, refRun]
    rw [h1, h3, h4, h2]
    exact ⟨rfl, rfl⟩

end lockStack

/-! ## Sequential behaviour of `occStack` -/

namespace occStack

/-- Without interference the CAS of `Push` succeeds in the first iteration. -/
theorem occ_Push_eq (fuel : Nat) (s : OccStack) (v : Int) :
    Push (fuel + 1) s v = some ⟨s.mem ++ [⟨s.head, v⟩], some s.mem.length⟩ := by
  simp [Push, LoadPointer, newNode, Heap.alloc, CompareAndSwapPointer]

theorem occ_Pop_none (fuel : Nat) {s : OccStack} (h : s.head = none) :
    Pop (fuel + 1) s = some (-1, s) := by
  simp [Pop, LoadPointer, h]

/-- Without interference the CAS of `Pop` succeeds in the first iteration. -/
theorem occ_Pop_some (fuel : Nat) {s : OccStack} {a : Nat} (h : s.head = some a) :
    Pop (fuel + 1) s = some ((s.mem.deref a).val, ⟨s.mem, (s.mem.deref a).next⟩) := by
  simp [Pop, LoadPointer, h, CompareAndSwapPointer]

theorem occ_Peek_none {s : OccStack} (h : s.head = none) : Peek s = (-1, s) := by
  simp [Peek, LoadPointer, h]

theorem occ_Peek_some {s : OccStack} {a : Nat} (h : s.head = some a) :
    Peek s = ((s.mem.deref a).val, s) := by
  simp [Peek, LoadPointer, h]

theorem Push_toLock (fuel : Nat) (s : OccStack) (v : Int) :
    (Push (fuel + 1) s v).map toLock = some (lockStack.Push (toLock s) v) := by
  rw [occ_Push_eq]; rfl

theorem Pop_toLock (fuel : Nat) (s : OccStack) :
    (Pop (fuel + 1) s).map (fun r => (r.1, toLock r.2)) = some (lockStack.Pop (toLock s)) := by
  cases h : s.head with
  | none =>
    rw [occ_Pop_none fuel h, lockStack.Pop_none (s := toLock s) h]; rfl
  | some a =>
    rw [occ_Pop_some fuel h, lockStack.Pop_some (s := toLock s) h]; rfl

theorem Peek_toLock (s : OccStack) :
    ((Peek s).1, toLock (Peek s).2) = lockStack.Peek (toLock s) := by
  cases h : s.head with
  | none =>
    rw [occ_Peek_none h, lockStack.Peek_none (s := toLock s) h]
  | some a =>
    rw [occ_Peek_some h, lockStack.Peek_some (s := toLock s) h]; rfl

/-- One call of `OccStack` returns, and does what the same call does on `LockStack`. -/
theorem call_toLock (fuel : Nat) (s : OccStack) (c : Call) :
    ∃ s', call (fuel + 1) s c = some ((lockStack.call (toLock s) c).1, s') ∧
      toLock s' = (lockStack.call (toLock s) c).2 := by
  cases c with
  | push v =>
    refine ⟨⟨s.mem ++ [(⟨s.head, v⟩ : Node)], some s.mem.length⟩, ?_, ?_⟩
    · simp only [call, occ_Push_eq]
      rfl
    · rfl
  | pop =>
    cases h : s.head with
    | none =>
      refine ⟨s, ?_, ?_⟩
      · simp only [call, occ_Pop_none fuel h, lockStack.call, lockStack.Pop_none (s := toLock s) h]
        rfl
      · simp only [lockStack.call, lockStack.Pop_none (s := toLock s) h]
    | some a =>
      refine ⟨⟨s.mem, (s.mem.deref a).next⟩, ?_, ?_⟩
      · simp only [call, occ_Pop_some fuel h, lockStack.call, lockStack.Pop_some (s := toLock s) h]
        rfl
      · simp only [lockStack.call, lockStack.Pop_some (s := toLock s) h]
        rfl
  | peek =>
    refine ⟨(Peek s).2, ?_, ?_⟩
    · simp only [call, lockStack.call, ← Peek_toLock]
    · simp only [lockStack.call, ← Peek_toLock]

/-- A sequential run of `OccStack` returns, and agrees with `LockStack` call by call. -/
theorem run_toLock (fuel : Nat) (s : OccStack) (cs : List Call) :
    ∃ s', run (fuel + 1) s cs = some ((lockStack.run (toLock s) cs).1, s') ∧
      toLock s' = (lockStack.run (toLock s) cs).2 := by
  induction cs generalizing s with
  | nil => exact ⟨s, rfl, rfl⟩
  | cons c cs ih =>
    obtain ⟨s1, h1, h2⟩ := call_toLock fuel s c
    obtain ⟨s2, h3, h4⟩ := ih s1
    refine ⟨s2, ?_, ?_⟩
    · simp only [run, h1, h3, lockStack.run, h2]
    · simp only [lockStack.run, ← h2, h4]

theorem contents_toLock (s : OccStack) : lockStack.contents (toLock s) = contents s := rfl

theorem wf_toLock (s : OccStack) : lockStack.WF (toLock s) ↔ WF s := Iff.rfl

end occStack

/-! ## The sequential contract -/

/-- C1 (LIFO law).  For every finite sequence of Push/Pop/Peek calls executed one after
another on an initially empty stack, `LockStack` and `OccStack` (whose loops return within
any positive iteration bound) return exactly what the reference list returns, where Push
conses, Pop drops the first element and returns it, or `-1` when there is none, and the
chain from `head` holds exactly the reference list afterwards.  The scenario
Push(1); Push(2); Pop()=2; Push(3); Pop()=3; Push(4); Pop()=4; Pop()=1 is an instance. -/
theorem lifo_law (calls : List Call) (fuel : Nat) :
    ((lockStack.run lockStack.empty calls).1 = (refRun [] calls).1 ∧
      lockStack.contents (lockStack.run lockStack.empty calls).2 = (refRun [] calls).2) ∧
    (∃ s, occStack.run (fuel + 1) occStack.empty calls = some ((refRun [] calls).1, s) ∧
      occStack.contents s = (refRun [] calls).2) ∧
    (lockStack.run lockStack.empty
        [.push 1, .push 2, .pop, .push 3, .pop, .push 4, .pop, .pop]).1
      = [none, none, some 2, none, some 3, none, some 4, some 1] ∧
    (occStack.run 1 occStack.empty
        [.push 1, .push 2, .pop, .push 3, .pop, .push 4, .pop, .pop]).map (fun r => r.1)
      = some [none, none, some 2, none, some 3, none, some 4, some 1] := by
  have hl := lockStack.run_ref lockStack.wf_empty calls
  have he : lockStack.contents lockStack.empty = [] := rfl
  rw [he] at hl
  refine ⟨hl, ?_, by decide, by decide⟩
  obtain ⟨s, h1, h2⟩ := occStack.run_toLock fuel occStack.empty calls
  refine ⟨s, ?_, ?_⟩
  · rw [h1]
    exact congrArg (fun r => some (r, s)) hl.1
  · rw [← occStack.contents_toLock, h2]
    exact hl.2

/-- C2.  Pop on an empty stack (`head` is nil) returns the empty-marker `-1` and leaves the
stack as it was, in `LockStack` and in `OccStack`. -/
theorem pop_empty (sl : lockStack.LockStack) (so : occStack.OccStack) (fuel : Nat)
    (hl : sl.head = none) (ho : so.head = none) :
    lockStack.Pop sl = (-1, sl) ∧ occStack.Pop (fuel + 1) so = some (-1, so) :=
  ⟨lockStack.Pop_none hl, occStack.occ_Pop_none fuel ho⟩

theorem pop_empty_witness :
    lockStack.Pop lockStack.empty = (-1, lockStack.empty) ∧
      occStack.Pop (0 + 1) occStack.empty = some (-1, occStack.empty) :=
  pop_empty lockStack.empty occStack.empty 0 rfl rfl

/-- C3.  Peek on an empty stack (`head` is nil) returns the empty-marker `-1` and leaves the
stack as it was, in `LockStack` and in `OccStack`. -/
theorem peek_empty (sl : lockStack.LockStack) (so : occStack.OccStack)
    (hl : sl.head = none) (ho : so.head = none) :
    lockStack.Peek sl = (-1, sl) ∧ occStack.Peek so = (-1, so) :=
  ⟨lockStack.Peek_none hl, occStack.occ_Peek_none ho⟩

theorem peek_empty_witness :
    lockStack.Peek lockStack.empty = (-1, lockStack.empty) ∧
      occStack.Peek occStack.empty = (-1, occStack.empty) :=
  peek_empty lockStack.empty occStack.empty rfl rfl

/-- C4 (Push/Pop round trip).  In every well-formed stack state, `Push(v)` immediately
followed by `Pop()` returns `v`, restores `head` and leaves the contents as they were; on
the empty stack the result is the empty contents.  Holds for `LockStack` and for
`OccStack`, whose two loops return. -/
theorem push_pop_round_trip (sl : lockStack.LockStack) (so : occStack.OccStack) (v : Int)
    (fuel : Nat) (hl : lockStack.WF sl) (ho : occStack.WF so) :
    ((lockStack.Pop (lockStack.Push sl v)).1 = v ∧
      (lockStack.Pop (lockStack.Push sl v)).2.head = sl.head ∧
      lockStack.contents (lockStack.Pop (lockStack.Push sl v)).2 = lockStack.contents sl) ∧
    (∃ s1 s2, occStack.Push (fuel + 1) so v = some s1 ∧
      occStack.Pop (fuel + 1) s1 = some (v, s2) ∧ s2.head = so.head ∧
      occStack.contents s2 = occStack.contents so) ∧
    lockStack.contents (lockStack.Pop (lockStack.Push lockStack.empty v)).2 = [] ∧
    (occStack.Push (fuel + 1) occStack.empty v).bind (occStack.Pop (fuel + 1))
      = some (v, ⟨[⟨none, v⟩], none⟩) := by
  refine ⟨?_, ?_, ?_, ?_⟩
  · rw [lockStack.Push_eq, lockStack.Pop_some (a := sl.mem.length) rfl]
    have hd := Heap.deref_append_length sl.mem ⟨sl.head, v⟩
    refine ⟨by simp only [hd], by simp only [hd], ?_⟩
    simp only [hd]
    exact Heap.contents_append hl.1 hl.2 _
  · have hd := Heap.deref_append_length so.mem ⟨so.head, v⟩
    refine ⟨_, ⟨so.mem ++ [(⟨so.head, v⟩ : Node)], so.head⟩, occStack.occ_Push_eq fuel so v,
      ?_, rfl, ?_⟩
    · rw [occStack.occ_Pop_some fuel (a := so.mem.length) rfl]
      simp only [hd]
    · exact Heap.contents_append ho.1 ho.2 _
  · rfl
  · rw [occStack.occ_Push_eq]
    simp only [Option.some_bind]
    rw [occStack.occ_Pop_some fuel (a := 0) rfl]
    rfl

theorem push_pop_round_trip_witness :
    (lockStack.Pop (lockStack.Push lockStack.empty 1)).1 = 1 ∧
    (lockStack.Pop (lockStack.Push lockStack.empty 1)).2.head = none ∧
    (occStack.Push (0 + 1) occStack.empty 1).bind (occStack.Pop (0 + 1))
      = some (1, ⟨[⟨none, 1⟩], none⟩) :=
  have h := push_pop_round_trip lockStack.empty occStack.empty 1 0
    lockStack.wf_empty ⟨Heap.closed_nil, Heap.valid_none _⟩
  ⟨h.1.1, h.1.2.1, h.2.2.2⟩

/-- C5.  Peek reads the top without removing it: on every non-empty stack, Peek returns the
value of the head node and leaves the whole state (head and every node) as it was, and the
Pop that follows returns that same value.  Holds for both stacks; the scenario
Push(5); Push(4); Push(3); Peek()=3; Pop()=3; Pop()=4; Pop()=5; Pop()=-1 is an instance. -/
theorem peek_reads_top (sl : lockStack.LockStack) (so : occStack.OccStack) (a b fuel : Nat)
    (hl : sl.head = some a) (ho : so.head = some b) :
    (lockStack.Peek sl = ((sl.mem.deref a).val, sl) ∧
      (lockStack.Pop (lockStack.Peek sl).2).1 = (lockStack.Peek sl).1) ∧
    (occStack.Peek so = ((so.mem.deref b).val, so) ∧
      (occStack.Pop (fuel + 1) (occStack.Peek so).2).map (fun r => r.1)
        = some (occStack.Peek so).1) ∧
    (lockStack.run lockStack.empty
        [.push 5, .push 4, .push 3, .peek, .pop, .pop, .pop, .pop]).1
      = [none, none, none, some 3, some 3, some 4, some 5, some (-1)] ∧
    (occStack.run 1 occStack.empty
        [.push 5, .push 4, .push 3, .peek, .pop, .pop, .pop, .pop]).map (fun r => r.1)
      = some [none, none, none, some 3, some 3, some 4, some 5, some (-1)] := by
  refine ⟨⟨lockStack.Peek_some hl, ?_⟩, ⟨occStack.occ_Peek_some ho, ?_⟩, by decide, by decide⟩
  · rw [lockStack.Peek_some hl, lockStack.Pop_some hl]
  · rw [occStack.occ_Peek_some ho, occStack.occ_Pop_some fuel ho]
    rfl

theorem peek_reads_top_witness :
    (lockStack.Peek (lockStack.Push lockStack.empty 3)).1 = 3 ∧
    (occStack.Peek ⟨[⟨none, 3⟩], some 0⟩).1 = 3 :=
  have h := peek_reads_top (lockStack.Push lockStack.empty 3) ⟨[⟨none, 3⟩], some 0⟩ 0 0 0
    rfl rfl
  ⟨congrArg Prod.fst h.1.1, congrArg Prod.fst h.2.1.1⟩

/-- C6.  `LockStack` and `OccStack` have identical sequential semantics: every finite
sequence of Push/Pop/Peek calls applied to an initially empty `OccStack` returns (for any
positive iteration bound of its loops), yields the same sequence of return values as on an
initially empty `LockStack`, and ends with the same heap, the same head and so the same
contents. -/
theorem lock_occ_same_semantics (calls : List Call) (fuel : Nat) :
    ∃ so, occStack.run (fuel + 1) occStack.empty calls
        = some ((lockStack.run lockStack.empty calls).1, so) ∧
      so.mem = (lockStack.run lockStack.empty calls).2.mem ∧
      so.head = (lockStack.run lockStack.empty calls).2.head ∧
      occStack.contents so = lockStack.contents (lockStack.run lockStack.empty calls).2 := by
  obtain ⟨so, h1, h2⟩ := occStack.run_toLock fuel occStack.empty calls
  refine ⟨so, h1, ?_, ?_, ?_⟩
  · exact congrArg lockStack.LockStack.mem h2
  · exact congrArg lockStack.LockStack.head h2
  · rw [← occStack.contents_toLock]
    exact congrArg lockStack.contents h2

/-- C7.  The empty-marker is distinguishable from every legitimate value: on a well-formed
stack all of whose stored values are non-negative, Pop returns `-1` exactly when the stack
is empty and Peek returns `-1` exactly when the stack is empty, for both stacks. -/
theorem marker_iff_empty (sl : lockStack.LockStack) (so : occStack.OccStack) (fuel : Nat)
    (hl : lockStack.WF sl) (ho : occStack.WF so)
    (hvl : ∀ v ∈ lockStack.contents sl, 0 ≤ v) (hvo : ∀ v ∈ occStack.contents so, 0 ≤ v) :
    (((lockStack.Pop sl).1 = -1 ↔ sl.head = none) ∧
      ((lockStack.Peek sl).1 = -1 ↔ sl.head = none)) ∧
    (((occStack.Pop (fuel + 1) so).map (fun r => r.1) = some (-1) ↔ so.head = none) ∧
      ((occStack.Peek so).1 = -1 ↔ so.head = none)) := by
  constructor
  · cases h : sl.head with
    | none => simp [lockStack.Pop_none h, lockStack.Peek_none h]
    | some a =>
      have hc := lockStack.contents_of_head_some hl h
      have hv := hvl (sl.mem.deref a).val (by rw [hc]; exact List.mem_cons_self _ _)
      rw [lockStack.Pop_some h, lockStack.Peek_some h]
      simp only [reduceCtorEq, iff_false]
      constructor <;> omega
  · cases h : so.head with
    | none => simp [occStack.occ_Pop_none fuel h, occStack.occ_Peek_none h]
    | some a =>
      have hc := lockStack.contents_of_head_some (s := occStack.toLock so) ho h
      have hv := hvo (so.mem.deref a).val (by
        rw [← occStack.contents_toLock, hc]; exact List.mem_cons_self _ _)
      rw [occStack.occ_Pop_some fuel h, occStack.occ_Peek_some h]
      simp only [Option.map_some', Option.some.injEq, reduceCtorEq, iff_false]
      constructor <;> omega

theorem marker_iff_empty_witness :
    ((lockStack.Pop (lockStack.Push lockStack.empty 0)).1 = -1 ↔
      (lockStack.Push lockStack.empty 0).head = none) ∧
    ((occStack.Peek ⟨[⟨none, 0⟩], some 0⟩).1 = -1 ↔
      (⟨[⟨none, 0⟩], some 0⟩ : occStack.OccStack).head = none) :=
  have h := marker_iff_empty (lockStack.Push lockStack.empty 0) ⟨[⟨none, 0⟩], some 0⟩ 0
    (lockStack.wf_Push lockStack.wf_empty 0)
    (lockStack.wf_Push (s := lockStack.empty) lockStack.wf_empty 0)
    (by decide) (by decide)
  ⟨h.1.1, h.2.2⟩

/-! ## Lists of threads -/

section ListLemmas

variable {α β : Type}

theorem filterMap_cons_toList (f : α → Option β) (a : α) (l : List α) :
    (a :: l).filterMap f = (f a).toList ++ l.filterMap f := by
  cases h : f a <;> simp [List.filterMap_cons, h]

/-- Replacing the entry at `t` exchanges its projection for that of the new entry. -/
theorem filterMap_set_perm (f : α → Option β) :
    ∀ (l : List α) (t : Nat) (a b : α), l[t]? = some a →
      ((f a).toList ++ (l.set t b).filterMap f).Perm ((f b).toList ++ l.filterMap f) := by
  intro l
  induction l with
  | nil => intro t a b h; simp at h
  | cons c l ih =>
    intro t a b h
    cases t with
    | zero =>
      simp only [List.getElem?_cons_zero, Option.some.injEq] at h
      subst h
      rw [List.set_cons_zero, filterMap_cons_toList, filterMap_cons_toList]
      exact List.perm_append_comm_assoc _ _ _
    | succ t =>
      simp only [List.getElem?_cons_succ] at h
      rw [List.set_cons_succ, filterMap_cons_toList, filterMap_cons_toList]
      exact (List.perm_append_comm_assoc _ _ _).trans
        (((ih t a b h).append_left _).trans (List.perm_append_comm_assoc _ _ _))

theorem filterMap_set_same (f : α → Option β) {l : List α} {t : Nat} {a b : α}
    (h : l[t]? = some a) (hab : f b = f a) :
    ((l.set t b).filterMap f).Perm (l.filterMap f) := by
  have := filterMap_set_perm f l t a b h
  rw [hab] at this
  exact (List.perm_append_left_iff _).1 this

theorem filterMap_set_add (f : α → Option β) {l : List α} {t : Nat} {a b : α} {x : β}
    (h : l[t]? = some a) (ha : f a = none) (hb : f b = some x) :
    ((l.set t b).filterMap f).Perm (x :: l.filterMap f) := by
  have := filterMap_set_perm f l t a b h
  rw [ha, hb] at this
  simpa using this

theorem filterMap_set_drop (f : α → Option β) {l : List α} {t : Nat} {a b : α} {x : β}
    (h : l[t]? = some a) (ha : f a = some x) (hb : f b = none) :
    (x :: (l.set t b).filterMap f).Perm (l.filterMap f) := by
  have := filterMap_set_perm f l t a b h
  rw [ha, hb] at this
  simpa using this

/-- A projection that is defined less often selects a sublist. -/
theorem filterMap_sublist_of_le (f g : α → Option β) (hfg : ∀ a, f a = none ∨ f a = g a) :
    ∀ l : List α, (l.filterMap f).Sublist (l.filterMap g) := by
  intro l
  induction l with
  | nil => simp
  | cons a l ih =>
    rw [filterMap_cons_toList, filterMap_cons_toList]
    rcases hfg a with h | h
    · rw [h]
      exact ih.trans (List.sublist_append_right _ _)
    · rw [h]
      exact List.Sublist.append_left ih _

/-- Two entries with the same projection in a duplicate-free projection are one entry. -/
theorem filterMap_nodup_inj (f : α → Option β) :
    ∀ (l : List α) (i j : Nat) (x y : α) (b : β), (l.filterMap f).Nodup →
      l[i]? = some x → l[j]? = some y → f x = some b → f y = some b → i = j := by
  intro l
  induction l with
  | nil => intro i j x y b _ h; simp at h
  | cons c l ih =>
    intro i j x y b hn hi hj hx hy
    rw [filterMap_cons_toList] at hn
    cases i with
    | zero =>
      cases j with
      | zero => rfl
      | succ j =>
        exfalso
        simp only [List.getElem?_cons_zero, Option.some.injEq] at hi
        simp only [List.getElem?_cons_succ] at hj
        subst hi
        rw [hx] at hn
        have hb : b ∈ l.filterMap f := List.mem_filterMap.2 ⟨y, List.getElem?_mem hj, hy⟩
        simp only [Option.toList_some, List.singleton_append, List.nodup_cons] at hn
        exact hn.1 hb
    | succ i =>
      cases j with
      | zero =>
        exfalso
        simp only [List.getElem?_cons_zero, Option.some.injEq] at hj
        simp only [List.getElem?_cons_succ] at hi
        subst hj
        rw [hy] at hn
        have hb : b ∈ l.filterMap f := List.mem_filterMap.2 ⟨x, List.getElem?_mem hi, hx⟩
        simp only [Option.toList_some, List.singleton_append, List.nodup_cons] at hn
        exact hn.1 hb
      | succ j =>
        simp only [List.getElem?_cons_succ] at hi hj
        have := ih i j x y b (List.Nodup.of_append_right hn) hi hj hx hy
        omega

/-- A projection that factors through another one on every entry. -/
theorem filterMap_eq_map_filterMap (f : α → Option β) {γ : Type} (g : α → Option γ)
    (k : β → γ) : ∀ l : List α, (∀ a ∈ l, g a = (f a).map k) →
      l.filterMap g = (l.filterMap f).map k := by
  intro l
  induction l with
  | nil => intro _; rfl
  | cons a l ih =>
    intro h
    rw [filterMap_cons_toList, filterMap_cons_toList, h a (List.mem_cons_self _ _),
      ih (fun x hx => h x (List.mem_cons_of_mem _ hx))]
    cases f a <;> simp

end ListLemmas

/-! ## The invariant of the interleaved execution -/

namespace occStack

theorem Thread.ok_append {mem : Heap} {th : Thread} (h : th.Ok mem) (n : Node) :
    th.Ok (mem ++ [n]) := by
  have hlen : (mem ++ [n]).length = mem.length + 1 := by simp
  cases th with
  | pushCas v c a =>
    obtain ⟨h1, h2⟩ := h
    exact ⟨by rw [hlen]; omega, by rw [Heap.deref_append_lt mem n h1]; exact h2⟩
  | pushDone v c a =>
    obtain ⟨h1, h2⟩ := h
    exact ⟨by rw [hlen]; omega, by rw [Heap.deref_append_lt mem n h1]; exact h2⟩
  | popCas a v =>
    obtain ⟨h1, h2⟩ := h
    exact ⟨by rw [hlen]; omega, by rw [Heap.deref_append_lt mem n h1]; exact h2⟩
  | popDone c v =>
    cases c with
    | none => exact h
    | some a =>
      obtain ⟨h1, h2⟩ := h
      exact ⟨by rw [hlen]; omega, by rw [Heap.deref_append_lt mem n h1]; exact h2⟩
  | pushLoad v => trivial
  | popLoad => trivial
  | peekLoad => trivial
  | peekDone c v => trivial

namespace Sys

theorem step_of_none {σ : Sys} {t : Nat} (h : σ.threads[t]? = none) : σ.step t = σ := by
  simp [step, h]

theorem step_of_some {σ : Sys} {t : Nat} {th : Thread} (h : σ.threads[t]? = some th) :
    σ.step t = ⟨(th.step σ.stack).2, σ.threads.set t (th.step σ.stack).1⟩ := by
  simp [step, h]

theorem built_lt {σ : Sys} (h : Inv σ) : ∀ a ∈ σ.built, a < σ.stack.mem.length := by
  intro a ha
  obtain ⟨th, hth, hb⟩ := List.mem_filterMap.1 ha
  have hok := h.ok th hth
  cases th <;> simp only [Thread.built, reduceCtorEq, Option.some.injEq] at hb
  · subst hb; exact hok.1
  · subst hb; exact hok.1

theorem inv_init (calls : List Call) : Inv (init calls) := by
  have hb : ∀ (f : Thread → Option Nat), (∀ c, f (Thread.start c) = none) →
      (calls.map Thread.start).filterMap f = [] := by
    intro f hf
    rw [List.filterMap_eq_nil_iff]
    intro th hth
    obtain ⟨c, _, rfl⟩ := List.mem_map.1 hth
    exact hf c
  refine ⟨Heap.closed_nil, Heap.valid_none _, ?_, ?_, ?_⟩
  · show ((calls.map Thread.start).filterMap Thread.built).Nodup
    rw [hb _ (fun c => by cases c <;> rfl)]
    exact List.nodup_nil
  · intro th hth
    obtain ⟨c, _, rfl⟩ := List.mem_map.1 hth
    cases c <;> trivial
  · show (Heap.chain [] 0 none ++ (calls.map Thread.start).filterMap Thread.poppedNode).Perm
      ((calls.map Thread.start).filterMap Thread.pushedNode)
    rw [hb _ (fun c => by cases c <;> rfl), hb _ (fun c => by cases c <;> rfl)]
    exact List.Perm.refl _

/-- A step that leaves the stack alone and does not link, detach or build a node. -/
theorem inv_set {σ : Sys} {t : Nat} {th th' : Thread} (h : Inv σ)
    (ht : σ.threads[t]? = some th)
    (hb : th'.built = none ∨ th'.built = th.built)
    (hpu : th'.pushedNode = th.pushedNode) (hpo : th'.poppedNode = th.poppedNode)
    (hok : th'.Ok σ.stack.mem) : Inv ⟨σ.stack, σ.threads.set t th'⟩ := by
  refine ⟨h.closed, h.valid, ?_, ?_, ?_⟩
  · show ((σ.threads.set t th').filterMap Thread.built).Nodup
    rcases hb with hb | hb
    · cases hx : th.built with
      | none =>
        exact (filterMap_set_same Thread.built ht (hb.trans hx.symm)).nodup_iff.2 h.nodup
      | some x =>
        have := (filterMap_set_drop Thread.built ht hx hb).nodup_iff.2 h.nodup
        exact (List.nodup_cons.1 this).2
    · exact (filterMap_set_same Thread.built ht hb).nodup_iff.2 h.nodup
  · intro x hx
    rcases List.mem_or_eq_of_mem_set hx with hx | rfl
    · exact h.ok x hx
    · exact hok
  · show (σ.chain ++ (σ.threads.set t th').filterMap Thread.poppedNode).Perm
      ((σ.threads.set t th').filterMap Thread.pushedNode)
    exact (((filterMap_set_same Thread.poppedNode ht hpo).append_left _).trans h.linked).trans
      (filterMap_set_same Thread.pushedNode ht hpu).symm

/-- The load step of `Push`: a node is built, nothing is linked. -/
theorem inv_pushLoad {σ : Sys} {t : Nat} {v : Int} (h : Inv σ)
    (ht : σ.threads[t]? = some (.pushLoad v)) :
    Inv ⟨⟨σ.stack.mem ++ [⟨σ.stack.head, v⟩], σ.stack.head⟩,
      σ.threads.set t (.pushCas v σ.stack.head σ.stack.mem.length)⟩ := by
  have hlen : (σ.stack.mem ++ [(⟨σ.stack.head, v⟩ : Node)]).length = σ.stack.mem.length + 1 := by
    simp
  refine ⟨Heap.closed_alloc h.closed h.valid v, Heap.valid_append h.valid _, ?_, ?_, ?_⟩
  · show ((σ.threads.set t _).filterMap Thread.built).Nodup
    refine (filterMap_set_add Thread.built (b := .pushCas v σ.stack.head σ.stack.mem.length) ht rfl rfl).nodup_iff.2 (List.nodup_cons.2 ⟨?_, h.nodup⟩)
    intro hmem
    have := built_lt h _ hmem
    omega
  · intro x hx
    rcases List.mem_or_eq_of_mem_set hx with hx | rfl
    · exact Thread.ok_append (h.ok x hx) _
    · exact ⟨by rw [hlen]; omega, Heap.deref_append_length _ _⟩
  · show (Heap.chain (σ.stack.mem ++ [⟨σ.stack.head, v⟩])
        (σ.stack.mem ++ [(⟨σ.stack.head, v⟩ : Node)]).length σ.stack.head ++
      (σ.threads.set t (.pushCas v σ.stack.head σ.stack.mem.length)).filterMap
        Thread.poppedNode).Perm
      ((σ.threads.set t (.pushCas v σ.stack.head σ.stack.mem.length)).filterMap
        Thread.pushedNode)
    rw [hlen, Heap.chain_append h.closed _ _ _ h.valid,
      Heap.chain_fuel_ptr h.closed (f := σ.stack.mem.length + 1) (g := σ.stack.mem.length)
        (fun a ha => by have := h.valid a ha; omega) h.valid]
    exact (((filterMap_set_same Thread.poppedNode (b := .pushCas v σ.stack.head σ.stack.mem.length) ht rfl).append_left _).trans h.linked).trans
      (filterMap_set_same Thread.pushedNode (b := .pushCas v σ.stack.head σ.stack.mem.length) ht rfl).symm

/-- The successful CAS of `Push`: the built node becomes the first node of the chain. -/
theorem inv_pushCas {σ : Sys} {t : Nat} {v : Int} {c : Ptr} {n : Nat} (h : Inv σ)
    (ht : σ.threads[t]? = some (.pushCas v c n)) (hc : σ.stack.head = c) :
    Inv ⟨⟨σ.stack.mem, some n⟩, σ.threads.set t (.pushDone v c n)⟩ := by
  obtain ⟨hn, hcell⟩ := h.ok _ (List.getElem?_mem ht)
  refine ⟨h.closed, ?_, ?_, ?_, ?_⟩
  · intro a ha
    cases ha
    exact hn
  · exact (filterMap_set_same Thread.built (b := .pushDone v c n) ht rfl).nodup_iff.2 h.nodup
  · intro x hx
    rcases List.mem_or_eq_of_mem_set hx with hx | rfl
    · exact h.ok x hx
    · exact ⟨hn, hcell⟩
  · show (Heap.chain σ.stack.mem σ.stack.mem.length (some n) ++
      (σ.threads.set t _).filterMap Thread.poppedNode).Perm
      ((σ.threads.set t _).filterMap Thread.pushedNode)
    obtain ⟨k, hk⟩ : ∃ k, σ.stack.mem.length = k + 1 := ⟨σ.stack.mem.length - 1, by omega⟩
    have hnext : (σ.stack.mem.deref n).next = σ.stack.head := by rw [hcell, hc]
    have hch : Heap.chain σ.stack.mem (k + 1) (some n) = n :: σ.chain := by
      simp only [Heap.chain, chain]
      congr 1
      rw [hnext]
      refine Heap.chain_fuel_ptr h.closed (fun a ha => ?_) h.valid
      have := h.closed n a (hnext.trans ha)
      omega
    rw [hk, hch]
    refine List.Perm.trans ?_ (filterMap_set_add Thread.pushedNode (b := .pushDone v c n) ht rfl rfl).symm
    exact List.Perm.cons _
      (((filterMap_set_same Thread.poppedNode (b := .pushDone v c n) ht rfl).append_left _).trans h.linked)

/-- The successful CAS of `Pop`: the first node of the chain is detached. -/
theorem inv_popCas {σ : Sys} {t a : Nat} {v : Int} (h : Inv σ)
    (ht : σ.threads[t]? = some (.popCas a v)) (hc : σ.stack.head = some a) :
    Inv ⟨⟨σ.stack.mem, (σ.stack.mem.deref a).next⟩, σ.threads.set t (.popDone (some a) v)⟩ := by
  obtain ⟨ha, hval⟩ := h.ok _ (List.getElem?_mem ht)
  refine ⟨h.closed, Heap.valid_next h.closed ha, ?_, ?_, ?_⟩
  · exact (filterMap_set_same Thread.built (b := .popDone (some a) v) ht rfl).nodup_iff.2 h.nodup
  · intro x hx
    rcases List.mem_or_eq_of_mem_set hx with hx | rfl
    · exact h.ok x hx
    · exact ⟨ha, hval⟩
  · show (Heap.chain σ.stack.mem σ.stack.mem.length (σ.stack.mem.deref a).next ++
      (σ.threads.set t _).filterMap Thread.poppedNode).Perm
      ((σ.threads.set t _).filterMap Thread.pushedNode)
    obtain ⟨k, hk⟩ : ∃ k, σ.stack.mem.length = k + 1 := ⟨σ.stack.mem.length - 1, by omega⟩
    have hch : σ.chain = a :: Heap.chain σ.stack.mem (k + 1) (σ.stack.mem.deref a).next := by
      simp only [chain, hc, hk, Heap.chain]
      congr 1
      refine Heap.chain_fuel_ptr h.closed (fun b hb => ?_) (fun b hb => ?_)
      · have := h.closed a b hb; omega
      · have := h.closed a b hb; omega
    have hl := h.linked
    rw [hch] at hl
    rw [hk]
    refine List.Perm.trans ?_ (filterMap_set_same Thread.pushedNode (b := .popDone (some a) v) ht rfl).symm
    refine List.Perm.trans ?_ hl
    refine ((filterMap_set_add Thread.poppedNode (b := .popDone (some a) v) ht rfl rfl).append_left _).trans ?_
    exact List.perm_middle

/-- Every atomic step of every thread keeps the invariant. -/
theorem inv_step {σ : Sys} (h : Inv σ) (t : Nat) : Inv (σ.step t) := by
  cases ht : σ.threads[t]? with
  | none => rw [step_of_none ht]; exact h
  | some th =>
    rw [step_of_some ht]
    have hok := h.ok th (List.getElem?_mem ht)
    cases th with
    | pushLoad v => exact inv_pushLoad h ht
    | pushCas v c n =>
      by_cases hc : σ.stack.head = c
      · have : Thread.step (.pushCas v c n) σ.stack = (.pushDone v c n, ⟨σ.stack.mem, some n⟩) := by
          simp [Thread.step, CompareAndSwapPointer, hc]
        rw [this]
        exact inv_pushCas h ht hc
      · have : Thread.step (.pushCas v c n) σ.stack = (.pushLoad v, σ.stack) := by
          simp [Thread.step, CompareAndSwapPointer, hc]
        rw [this]
        exact inv_set h ht (Or.inl rfl) rfl rfl trivial
    | pushDone v c n => exact inv_set h ht (Or.inr rfl) rfl rfl hok
    | popLoad =>
      cases hc : σ.stack.head with
      | none =>
        have : Thread.step .popLoad σ.stack = (.popDone none (-1), σ.stack) := by
          simp [Thread.step, LoadPointer, hc]
        rw [this]
        exact inv_set h ht (Or.inl rfl) rfl rfl rfl
      | some a =>
        have : Thread.step .popLoad σ.stack = (.popCas a (σ.stack.mem.deref a).val, σ.stack) := by
          simp [Thread.step, LoadPointer, hc]
        rw [this]
        exact inv_set h ht (Or.inl rfl) rfl rfl ⟨h.valid a hc, rfl⟩
    | popCas a v =>
      by_cases hc : σ.stack.head = some a
      · have : Thread.step (.popCas a v) σ.stack
            = (.popDone (some a) v, ⟨σ.stack.mem, (σ.stack.mem.deref a).next⟩) := by
          simp [Thread.step, CompareAndSwapPointer, hc]
        rw [this]
        exact inv_popCas h ht hc
      · have : Thread.step (.popCas a v) σ.stack = (.popLoad, σ.stack) := by
          simp [Thread.step, CompareAndSwapPointer, hc]
        rw [this]
        exact inv_set h ht (Or.inl rfl) rfl rfl trivial
    | popDone c v => exact inv_set h ht (Or.inr rfl) rfl rfl hok
    | peekLoad =>
      cases hc : σ.stack.head with
      | none =>
        have : Thread.step .peekLoad σ.stack = (.peekDone none (-1), σ.stack) := by
          simp [Thread.step, LoadPointer, hc]
        rw [this]
        exact inv_set h ht (Or.inl rfl) rfl rfl trivial
      | some a =>
        have : Thread.step .peekLoad σ.stack
            = (.peekDone (some a) (σ.stack.mem.deref a).val, σ.stack) := by
          simp [Thread.step, LoadPointer, hc]
        rw [this]
        exact inv_set h ht (Or.inl rfl) rfl rfl trivial
    | peekDone c v => exact inv_set h ht (Or.inr rfl) rfl rfl hok

theorem inv_run {σ : Sys} (h : Inv σ) (sched : List Nat) : Inv (σ.run sched) := by
  induction sched generalizing σ with
  | nil => exact h
  | cons t ts ih => exact ih (inv_step h t)

end Sys

end occStack

/-! ## What the invariant says about the calls -/

namespace occStack

theorem Thread.step_call (th : Thread) (s : OccStack) : (th.step s).1.call = th.call := by
  cases th <;> simp only [Thread.step, CompareAndSwapPointer, LoadPointer, newNode, Heap.alloc]
  · rfl
  · split <;> rfl
  · split <;> rfl
  · split <;> rfl
  · split <;> rfl

/-- A built node of the thread after a step was built before, or is the fresh cell. -/
theorem Thread.step_built (th : Thread) (s : OccStack) (x : Nat)
    (h : (th.step s).1.built = some x) : th.built = some x ∨ x = s.mem.length := by
  cases th <;>
    simp only [Thread.step, CompareAndSwapPointer, LoadPointer, newNode, Heap.alloc] at h
  · simp only [Thread.built, Option.some.injEq] at h
    exact Or.inr h.symm
  · split at h
    · exact Or.inl h
    · simp [Thread.built] at h
  · exact Or.inl h
  · split at h <;> simp [Thread.built] at h
  · split at h <;> simp [Thread.built] at h
  · exact Or.inl h
  · split at h <;> simp [Thread.built] at h
  · exact Or.inl h

/-- No step of any thread writes to a cell that exists: the heap only grows at its end. -/
theorem Thread.step_keeps_cells (th : Thread) (s : OccStack) : s.mem <+: (th.step s).2.mem := by
  cases th <;> simp only [Thread.step, CompareAndSwapPointer, LoadPointer, newNode, Heap.alloc]
  · exact List.prefix_append _ _
  · split <;> exact List.prefix_refl _
  · exact List.prefix_refl _
  · split <;> exact List.prefix_refl _
  · split <;> exact List.prefix_refl _
  · exact List.prefix_refl _
  · split <;> exact List.prefix_refl _
  · exact List.prefix_refl _

namespace Sys

theorem step_mem (σ : Sys) (t : Nat) : σ.stack.mem <+: (σ.step t).stack.mem := by
  cases ht : σ.threads[t]? with
  | none => rw [step_of_none ht]
  | some th => rw [step_of_some ht]; exact Thread.step_keeps_cells th σ.stack

theorem run_mem (σ : Sys) (sched : List Nat) : σ.stack.mem <+: (σ.run sched).stack.mem := by
  induction sched generalizing σ with
  | nil => exact List.prefix_refl _
  | cons t ts ih => exact (step_mem σ t).trans (ih (σ.step t))

theorem map_set_same {α β : Type} (f : α → β) :
    ∀ (l : List α) (t : Nat) (a b : α), l[t]? = some a → f b = f a →
      (l.set t b).map f = l.map f := by
  intro l
  induction l with
  | nil => intro t a b h; simp at h
  | cons c l ih =>
    intro t a b h hab
    cases t with
    | zero =>
      simp only [List.getElem?_cons_zero, Option.some.injEq] at h
      subst h
      simp [hab]
    | succ t =>
      simp only [List.getElem?_cons_succ] at h
      simp [ih t a b h hab]

theorem step_calls (σ : Sys) (t : Nat) :
    (σ.step t).threads.map Thread.call = σ.threads.map Thread.call := by
  cases ht : σ.threads[t]? with
  | none => rw [step_of_none ht]
  | some th =>
    rw [step_of_some ht]
    exact map_set_same Thread.call σ.threads t th _ ht (Thread.step_call th σ.stack)

theorem run_calls (σ : Sys) (sched : List Nat) :
    (σ.run sched).threads.map Thread.call = σ.threads.map Thread.call := by
  induction sched generalizing σ with
  | nil => rfl
  | cons t ts ih => exact (ih (σ.step t)).trans (step_calls σ t)

theorem init_calls (calls : List Call) : (init calls).threads.map Thread.call = calls := by
  show (calls.map Thread.start).map Thread.call = calls
  rw [List.map_map]
  conv_rhs => rw [← List.map_id calls]
  apply List.map_congr_left
  intro c _
  cases c <;> rfl

/-- Once every call has returned, the pushed values are the arguments of the Push calls. -/
theorem pushedVals_of_done {σ : Sys} (h : ∀ th ∈ σ.threads, th.done = true) :
    σ.pushedVals = (σ.threads.map Thread.call).filterMap pushArg := by
  rw [List.filterMap_map]
  apply List.filterMap_congr
  intro th hth
  have := h th hth
  cases th <;> simp [Thread.done] at this <;> rfl

theorem pushArg_calls (vals : List Int) (m : Nat) :
    (vals.map Call.push ++ List.replicate m Call.pop).filterMap pushArg = vals := by
  rw [List.filterMap_append, List.filterMap_map]
  have h1 : List.filterMap (pushArg ∘ Call.push) vals = vals := List.filterMap_some vals
  have h2 : List.filterMap pushArg (List.replicate m Call.pop) = [] := by
    rw [List.filterMap_eq_nil_iff]
    intro c hc
    rw [List.eq_of_mem_replicate hc]
    rfl
  rw [h1, h2, List.append_nil]

theorem pushedNodes_sublist (σ : Sys) : σ.pushedNodes.Sublist σ.built :=
  filterMap_sublist_of_le Thread.pushedNode Thread.built
    (fun th => by cases th <;> simp [Thread.pushedNode, Thread.built]) σ.threads

theorem chain_subset_built {σ : Sys} (h : Inv σ) : σ.chain ⊆ σ.built := fun _ hx =>
  (pushedNodes_sublist σ).subset (h.linked.subset (List.mem_append_left _ hx))

theorem poppedNodes_nodup {σ : Sys} (h : Inv σ) : σ.poppedNodes.Nodup :=
  List.Nodup.of_append_right
    (h.linked.nodup_iff.2 ((pushedNodes_sublist σ).nodup h.nodup))

theorem poppedVals_eq {σ : Sys} (h : Inv σ) :
    σ.poppedVals = σ.poppedNodes.map fun a => (σ.stack.mem.deref a).val := by
  apply filterMap_eq_map_filterMap
  intro th hth
  have hok := h.ok th hth
  cases th with
  | popDone c v =>
    cases c with
    | none => rfl
    | some a => exact congrArg some hok.2
  | _ => rfl

theorem pushedVals_eq {σ : Sys} (h : Inv σ) :
    σ.pushedVals = σ.pushedNodes.map fun a => (σ.stack.mem.deref a).val := by
  apply filterMap_eq_map_filterMap
  intro th hth
  have hok := h.ok th hth
  cases th with
  | pushDone v c n =>
    show some v = some (σ.stack.mem.deref n).val
    rw [hok.2]
  | _ => rfl

/-- The values popped so far together with the values on the stack are the values pushed so
far. -/
theorem vals_perm {σ : Sys} (h : Inv σ) :
    (σ.poppedVals ++ contents σ.stack).Perm σ.pushedVals := by
  rw [poppedVals_eq h, pushedVals_eq h]
  show (σ.poppedNodes.map _ ++ σ.chain.map _).Perm _
  rw [← List.map_append]
  exact (List.perm_append_comm.trans h.linked).map _

/-- A detached node was linked in by a completed `Push` of the value the `Pop` returned. -/
theorem popped_was_pushed {σ : Sys} (h : Inv σ) {a : Nat} {v : Int}
    (hth : Thread.popDone (some a) v ∈ σ.threads) :
    v = (σ.stack.mem.deref a).val ∧ ∃ cur, Thread.pushDone v cur a ∈ σ.threads := by
  have hv := (h.ok _ hth).2
  refine ⟨hv, ?_⟩
  have ha : a ∈ σ.poppedNodes := List.mem_filterMap.2 ⟨_, hth, rfl⟩
  have hp : a ∈ σ.pushedNodes := h.linked.subset (List.mem_append_right _ ha)
  obtain ⟨th, hmem, hb⟩ := List.mem_filterMap.1 hp
  cases th <;> simp only [Thread.pushedNode, reduceCtorEq, Option.some.injEq] at hb
  rename_i w c n
  subst hb
  have hcell := (h.ok _ hmem).2
  have : v = w := by rw [hv, hcell]
  subst this
  exact ⟨c, hmem⟩

end Sys

end occStack

/-! ## Nodes that were built and not linked -/

namespace occStack.Sys

theorem mem_built_step {σ : Sys} {t x : Nat} (hx : x ∈ (σ.step t).built) :
    x ∈ σ.built ∨ x = σ.stack.mem.length := by
  cases ht : σ.threads[t]? with
  | none => rw [step_of_none ht] at hx; exact Or.inl hx
  | some th =>
    rw [step_of_some ht] at hx
    obtain ⟨th', hmem, hb⟩ := List.mem_filterMap.1 hx
    rcases List.mem_or_eq_of_mem_set hmem with h | rfl
    · exact Or.inl (List.mem_filterMap.2 ⟨th', h, hb⟩)
    · rcases Thread.step_built th σ.stack x hb with h | h
      · exact Or.inl (List.mem_filterMap.2 ⟨th, List.getElem?_mem ht, h⟩)
      · exact Or.inr h

/-- An allocated cell that no thread holds as its built node is never built again. -/
theorem unbuilt_run {σ : Sys} {a : Nat} (ha : a < σ.stack.mem.length) (hb : a ∉ σ.built)
    (sched : List Nat) : a ∉ (σ.run sched).built := by
  induction sched generalizing σ with
  | nil => exact hb
  | cons t ts ih =>
    refine ih (Nat.lt_of_lt_of_le ha (step_mem σ t).length_le) (fun hx => ?_)
    rcases mem_built_step hx with h | h
    · exact hb h
    · omega

/-- A node whose `Push` iteration lost its CAS never shows up on the chain. -/
theorem discarded_never_linked {σ : Sys} (h : Inv σ) {t : Nat} {v : Int} {c : Ptr} {n : Nat}
    (ht : σ.threads[t]? = some (.pushCas v c n)) (sched : List Nat) :
    n ∉ (run ⟨σ.stack, σ.threads.set t (.pushLoad v)⟩ sched).chain := by
  have hinv : Inv ⟨σ.stack, σ.threads.set t (.pushLoad v)⟩ :=
    inv_set h ht (Or.inl rfl) rfl rfl trivial
  have hn : n < σ.stack.mem.length := (h.ok _ (List.getElem?_mem ht)).1
  have hdrop := filterMap_set_drop Thread.built (b := Thread.pushLoad v) ht rfl rfl
  have hnb : n ∉ (⟨σ.stack, σ.threads.set t (.pushLoad v)⟩ : Sys).built :=
    (List.nodup_cons.1 (hdrop.nodup_iff.2 h.nodup)).1
  intro hx
  exact unbuilt_run (σ := ⟨σ.stack, σ.threads.set t (.pushLoad v)⟩) hn hnb sched
    (chain_subset_built (inv_run hinv sched) hx)

theorem threads_step_ne (σ : Sys) {t u : Nat} (hu : u ≠ t) :
    (σ.step t).threads[u]? = σ.threads[u]? := by
  cases ht : σ.threads[t]? with
  | none => rw [step_of_none ht]
  | some th =>
    rw [step_of_some ht]
    exact List.getElem?_set_ne (Ne.symm hu)

theorem threads_set_self {l : List Thread} {t : Nat} {th th' : Thread}
    (ht : l[t]? = some th) : (l.set t th')[t]? = some th' := by
  have hlt : t < l.length := by
    by_contra hge
    rw [List.getElem?_eq_none (Nat.le_of_not_lt hge)] at ht
    cases ht
  simp [List.getElem?_set, hlt]

end occStack.Sys

theorem Heap.deref_of_prefix {h h' : Heap} (hp : h <+: h') {a : Nat} (ha : a < h.length) :
    Heap.deref h' a = Heap.deref h a := by
  obtain ⟨r, rfl⟩ := hp
  simp [Heap.deref, List.getD, List.getElem?_append_left ha]

/-! ## The concurrent contract of `occStack` -/

open occStack in
/-- C8 (no duplication, no loss).  Start `N` Push calls (one per element of `vals`) and `M`
Pop calls on an empty `OccStack` and interleave their atomic steps (head load, CAS) by any
schedule; no relation between `N` and `M` is needed.  In the state reached: every Pop that
has returned either loaded a nil head and returned `-1`, or returned the `val` of the node
it detached, which a completed Push of that value linked in; no node was detached by two
Pops; the values returned by the Pops whose CAS succeeded, together with the values on the
stack, are as a multiset the values whose Push has completed, and are the multiset `vals`
once every call has returned. -/
theorem no_duplication_no_loss (vals : List Int) (m : Nat) (σ : Sys)
    (hσ : σ.Reachable (vals.map Call.push ++ List.replicate m Call.pop)) :
    (∀ (t : Nat) (c : Ptr) (v : Int), σ.threads[t]? = some (Thread.popDone c v) →
      (c = none ∧ v = -1) ∨
      ∃ a cur, c = some a ∧ v = (σ.stack.mem.deref a).val ∧
        Thread.pushDone v cur a ∈ σ.threads) ∧
    (∀ (i j a : Nat) (v w : Int), σ.threads[i]? = some (Thread.popDone (some a) v) →
      σ.threads[j]? = some (Thread.popDone (some a) w) → i = j) ∧
    (σ.poppedVals ++ contents σ.stack).Perm σ.pushedVals ∧
    ((∀ th ∈ σ.threads, th.done = true) → (σ.poppedVals ++ contents σ.stack).Perm vals) := by
  obtain ⟨sched, rfl⟩ := hσ
  have hinv := Sys.inv_run (Sys.inv_init (vals.map Call.push ++ List.replicate m Call.pop)) sched
  refine ⟨?_, ?_, Sys.vals_perm hinv, ?_⟩
  · intro t c v ht
    have hmem := List.getElem?_mem ht
    cases c with
    | none => exact Or.inl ⟨rfl, hinv.ok _ hmem⟩
    | some a =>
      obtain ⟨hv, cur, hcur⟩ := Sys.popped_was_pushed hinv hmem
      exact Or.inr ⟨a, cur, rfl, hv, hcur⟩
  · intro i j a v w hi hj
    exact filterMap_nodup_inj Thread.poppedNode _ i j (.popDone (some a) v)
      (.popDone (some a) w) a (Sys.poppedNodes_nodup hinv) hi hj rfl rfl
  · intro hdone
    have hp := Sys.vals_perm hinv
    rw [Sys.pushedVals_of_done hdone, Sys.run_calls, Sys.init_calls, Sys.pushArg_calls] at hp
    exact hp

open occStack in
theorem no_duplication_no_loss_witness :
    Sys.Reachable ([7, 8].map Call.push ++ List.replicate 1 Call.pop)
      ⟨⟨[⟨none, 7⟩, ⟨none, 8⟩, ⟨some 1, 7⟩], some 1⟩,
        [.pushDone 7 (some 1) 2, .pushDone 8 none 1, .popDone (some 2) 7]⟩ ∧
    (Sys.poppedVals ⟨⟨[⟨none, 7⟩, ⟨none, 8⟩, ⟨some 1, 7⟩], some 1⟩,
        [.pushDone 7 (some 1) 2, .pushDone 8 none 1, .popDone (some 2) 7]⟩ ++
      contents ⟨[⟨none, 7⟩, ⟨none, 8⟩, ⟨some 1, 7⟩], some 1⟩).Perm [7, 8] :=
  ⟨⟨[0, 1, 1, 0, 0, 0, 2, 2], by decide⟩,
    (no_duplication_no_loss [7, 8] 1
      ⟨⟨[⟨none, 7⟩, ⟨none, 8⟩, ⟨some 1, 7⟩], some 1⟩,
        [.pushDone 7 (some 1) 2, .pushDone 8 none 1, .popDone (some 2) 7]⟩
      ⟨[0, 1, 1, 0, 0, 0, 2, 2], by decide⟩).2.2.2 (by decide)⟩

open occStack in
/-- C9 (a failed CAS has no effect).  The CAS fails exactly when `head` is not the observed
value, and then returns the stack as it is.  In every state reached by interleaving the
steps of any calls on an empty `OccStack`: when thread `t` stands before the CAS of `Push`
and `head` is no longer the pointer it loaded, its step leaves `head` and the heap as they
are, the thread stands at the load again without having returned, and the node it built
is on the chain in no later state of any continuation; when `head` is still the loaded
pointer, the step sets `head` to the built node and the call returns.  Likewise before the
CAS of `Pop`: on a mismatch nothing changes and the thread stands at the load again; on a
match `head` becomes the `next` of the loaded node and the call returns the value read.
No other thread is touched by the step. -/
theorem failed_cas_no_effect (calls : List Call) (σ : Sys) (t : Nat)
    (hσ : σ.Reachable calls) :
    (∀ (s : OccStack) (old new : Ptr),
      (s.head ≠ old → CompareAndSwapPointer s old new = (false, s)) ∧
      (s.head = old → CompareAndSwapPointer s old new = (true, ⟨s.mem, new⟩))) ∧
    (∀ (v : Int) (cur : Ptr) (new : Nat), σ.threads[t]? = some (Thread.pushCas v cur new) →
      (σ.stack.head ≠ cur →
        (σ.step t).stack = σ.stack ∧ (σ.step t).threads[t]? = some (Thread.pushLoad v) ∧
        ∀ more : List Nat, new ∉ ((σ.step t).run more).chain) ∧
      (σ.stack.head = cur →
        (σ.step t).stack = ⟨σ.stack.mem, some new⟩ ∧
        (σ.step t).threads[t]? = some (Thread.pushDone v cur new))) ∧
    (∀ (a : Nat) (value : Int), σ.threads[t]? = some (Thread.popCas a value) →
      (σ.stack.head ≠ some a →
        (σ.step t).stack = σ.stack ∧ (σ.step t).threads[t]? = some Thread.popLoad) ∧
      (σ.stack.head = some a →
        (σ.step t).stack = ⟨σ.stack.mem, (σ.stack.mem.deref a).next⟩ ∧
        (σ.step t).threads[t]? = some (Thread.popDone (some a) value))) ∧
    (∀ u : Nat, u ≠ t → (σ.step t).threads[u]? = σ.threads[u]?) := by
  have hinv : Sys.Inv σ := by
    obtain ⟨sched, rfl⟩ := hσ
    exact Sys.inv_run (Sys.inv_init calls) sched
  refine ⟨?_, ?_, ?_, fun u hu => Sys.threads_step_ne σ hu⟩
  · intro s old new
    exact ⟨fun h => by simp [CompareAndSwapPointer, h],
      fun h => by simp [CompareAndSwapPointer, h]⟩
  · intro v cur new ht
    constructor
    · intro hne
      have hstep : Thread.step (.pushCas v cur new) σ.stack = (.pushLoad v, σ.stack) := by
        simp [Thread.step, CompareAndSwapPointer, hne]
      have hσ : σ.step t = ⟨σ.stack, σ.threads.set t (.pushLoad v)⟩ := by
        rw [Sys.step_of_some ht, hstep]
      rw [hσ]
      exact ⟨rfl, Sys.threads_set_self ht, Sys.discarded_never_linked hinv ht⟩
    · intro heq
      have hstep : Thread.step (.pushCas v cur new) σ.stack
          = (.pushDone v cur new, ⟨σ.stack.mem, some new⟩) := by
        simp [Thread.step, CompareAndSwapPointer, heq]
      rw [Sys.step_of_some ht, hstep]
      exact ⟨rfl, Sys.threads_set_self ht⟩
  · intro a value ht
    constructor
    · intro hne
      have hstep : Thread.step (.popCas a value) σ.stack = (.popLoad, σ.stack) := by
        simp [Thread.step, CompareAndSwapPointer, hne]
      rw [Sys.step_of_some ht, hstep]
      exact ⟨rfl, Sys.threads_set_self ht⟩
    · intro heq
      have hstep : Thread.step (.popCas a value) σ.stack
          = (.popDone (some a) value, ⟨σ.stack.mem, (σ.stack.mem.deref a).next⟩) := by
        simp [Thread.step, CompareAndSwapPointer, heq]
      rw [Sys.step_of_some ht, hstep]
      exact ⟨rfl, Sys.threads_set_self ht⟩

open occStack in
theorem failed_cas_no_effect_witness :
    Sys.Reachable [.push 7, .push 8]
      ⟨⟨[⟨none, 7⟩, ⟨none, 8⟩], some 1⟩, [.pushCas 7 none 0, .pushDone 8 none 1]⟩ ∧
    (Sys.step ⟨⟨[⟨none, 7⟩, ⟨none, 8⟩], some 1⟩, [.pushCas 7 none 0, .pushDone 8 none 1]⟩
      0).stack = ⟨[⟨none, 7⟩, ⟨none, 8⟩], some 1⟩ ∧
    (Sys.step ⟨⟨[⟨none, 7⟩, ⟨none, 8⟩], some 1⟩, [.pushCas 7 none 0, .pushDone 8 none 1]⟩
      0).threads[0]? = some (Thread.pushLoad 7) ∧
    0 ∉ ((Sys.step ⟨⟨[⟨none, 7⟩, ⟨none, 8⟩], some 1⟩,
      [.pushCas 7 none 0, .pushDone 8 none 1]⟩ 0).run [0, 0]).chain :=
  have h := ((failed_cas_no_effect [.push 7, .push 8]
    ⟨⟨[⟨none, 7⟩, ⟨none, 8⟩], some 1⟩, [.pushCas 7 none 0, .pushDone 8 none 1]⟩ 0
    ⟨[0, 1, 1], by decide⟩).2.1 7 none 0 (by decide)).1 (by decide)
  ⟨⟨[0, 1, 1], by decide⟩, h.1, h.2.1, h.2.2 [0, 0]⟩

open lockStack occStack in
/-- C10 (nodes are write-once).  No operation of either stack changes the `val` or `next`
of a node that exists.  `Push` appends one new cell (holding the old head and the value) to
the heap and points `head` to it, `Pop` keeps the heap and only moves `head`, `Peek`
returns the state as it is; and in an interleaved execution of `OccStack` every atomic
step of every thread leaves every existing cell as it is. -/
theorem nodes_write_once (sl : LockStack) (so : OccStack) (v : Int) (fuel : Nat)
    (σ : Sys) (t : Nat) :
    (((lockStack.Push sl v).mem = sl.mem ++ [⟨sl.head, v⟩] ∧
        (lockStack.Push sl v).head = some sl.mem.length ∧
        ∀ a, a < sl.mem.length → (lockStack.Push sl v).mem.deref a = sl.mem.deref a) ∧
      (lockStack.Pop sl).2.mem = sl.mem ∧ (lockStack.Peek sl).2 = sl) ∧
    ((∃ s, occStack.Push (fuel + 1) so v = some s ∧ s.mem = so.mem ++ [⟨so.head, v⟩] ∧
        s.head = some so.mem.length ∧
        ∀ a, a < so.mem.length → s.mem.deref a = so.mem.deref a) ∧
      (∃ r, occStack.Pop (fuel + 1) so = some r ∧ r.2.mem = so.mem) ∧
      (occStack.Peek so).2 = so) ∧
    (σ.stack.mem <+: (σ.step t).stack.mem ∧
      ∀ a, a < σ.stack.mem.length → (σ.step t).stack.mem.deref a = σ.stack.mem.deref a) := by
  refine ⟨⟨⟨rfl, rfl, fun a ha => Heap.deref_append_lt _ _ ha⟩, ?_, ?_⟩, ⟨?_, ?_, ?_⟩,
    ⟨Sys.step_mem σ t, fun a ha => Heap.deref_of_prefix (Sys.step_mem σ t) ha⟩⟩
  · cases h : sl.head with
    | none => rw [lockStack.Pop_none h]
    | some a => rw [lockStack.Pop_some h]
  · cases h : sl.head with
    | none => rw [lockStack.Peek_none h]
    | some a => rw [lockStack.Peek_some h]
  · exact ⟨_, occ_Push_eq fuel so v, rfl, rfl, fun a ha => Heap.deref_append_lt _ _ ha⟩
  · cases h : so.head with
    | none => exact ⟨_, occ_Pop_none fuel h, rfl⟩
    | some a => exact ⟨_, occ_Pop_some fuel h, rfl⟩
  · cases h : so.head with
    | none => rw [occ_Peek_none h]
    | some a => rw [occ_Peek_some h]

/-! ## A thread alone on the machine runs the sequential method -/

namespace occStack.Sys

/-- The two steps of an undisturbed `Push` thread give the result of the method. -/
theorem solo_Push (s : OccStack) (v : Int) (fuel : Nat) :
    some (run ⟨s, [.pushLoad v]⟩ [0, 0]).stack = Push (fuel + 1) s v ∧
      (run ⟨s, [.pushLoad v]⟩ [0, 0]).threads = [.pushDone v s.head s.mem.length] := by
  rw [occ_Push_eq]
  simp [run, step, Thread.step, LoadPointer, newNode, Heap.alloc, CompareAndSwapPointer]

/-- The steps of an undisturbed `Pop` thread give the result of the method. -/
theorem solo_Pop (s : OccStack) (fuel : Nat) :
    ∃ c v, (run ⟨s, [.popLoad]⟩ [0, 0]).threads = [.popDone c v] ∧
      some (v, (run ⟨s, [.popLoad]⟩ [0, 0]).stack) = Pop (fuel + 1) s := by
  cases h : s.head with
  | none =>
    refine ⟨none, -1, ?_, ?_⟩
    · simp [run, step, Thread.step, LoadPointer, h]
    · rw [occ_Pop_none fuel h]
      simp [run, step, Thread.step, LoadPointer, h]
  | some a =>
    refine ⟨some a, (s.mem.deref a).val, ?_, ?_⟩
    · simp [run, step, Thread.step, LoadPointer, h, CompareAndSwapPointer]
    · rw [occ_Pop_some fuel h]
      simp [run, step, Thread.step, LoadPointer, h, CompareAndSwapPointer]

end occStack.Sys

/-! ## Head validity -/

namespace Heap

theorem after_none (h : Heap) (k : Nat) : after h k none = none := by
  cases k <;> rfl

/-- In a closed heap the walk from cell `a` has reached nil after `a + 1` steps. -/
theorem after_closed {h : Heap} (hc : Closed h) :
    ∀ (k a : Nat), a < k → after h k (some a) = none := by
  intro k
  induction k with
  | zero => intro a ha; omega
  | succ k ih =>
    intro a ha
    simp only [after]
    cases hn : (deref h a).next with
    | none => exact after_none h k
    | some b =>
      have := hc a b hn
      exact ih b (by omega)

theorem after_valid {h : Heap} (hc : Closed h) {p : Ptr} (hp : Valid h p) :
    after h h.length p = none := by
  cases p with
  | none => exact after_none h _
  | some a => exact after_closed hc _ a (hp a rfl)

end Heap

namespace occStack.Sys

/-- A node on the chain was built and linked by a completed `Push`, and its cell holds
the head that `Push` loaded and the value it pushed. -/
theorem chain_node_pushed {σ : Sys} (h : Inv σ) {x : Nat} (hx : x ∈ σ.chain) :
    ∃ v c, Thread.pushDone v c x ∈ σ.threads ∧ σ.stack.mem.deref x = ⟨c, v⟩ := by
  have hp : x ∈ σ.pushedNodes := h.linked.subset (List.mem_append_left _ hx)
  obtain ⟨th, hmem, hb⟩ := List.mem_filterMap.1 hp
  cases th <;> simp only [Thread.pushedNode, reduceCtorEq, Option.some.injEq] at hb
  rename_i w c n
  subst hb
  exact ⟨w, c, hmem, (h.ok _ hmem).2⟩

theorem inv_of_reachable {calls : List Call} {σ : Sys} (h : σ.Reachable calls) : Inv σ := by
  obtain ⟨sched, rfl⟩ := h
  exact inv_run (inv_init calls) sched

end occStack.Sys

open occStack in
/-- C11 (head validity).  In the state a `LockStack` is in after any sequence of calls from
empty, and in every state an `OccStack` reaches from empty under any interleaving of the
load and CAS steps of any calls: `head` is nil or the address of an allocated cell; the
chain from `head` visits only allocated cells, visits no cell twice, and the walk along
`next` has reached nil after at most as many steps as there are cells.  For `OccStack`
every cell on the chain is moreover the node a completed `Push` built, holding the value
of that `Push` and the head it had loaded, both written when the node was built, before
the CAS that linked it. -/
theorem head_validity (cs calls : List Call) (σ : Sys) (hσ : σ.Reachable calls) :
    (Heap.Valid (lockStack.run lockStack.empty cs).2.mem (lockStack.run lockStack.empty cs).2.head ∧
      (∀ f x, x ∈ Heap.chain (lockStack.run lockStack.empty cs).2.mem f
          (lockStack.run lockStack.empty cs).2.head →
        x < (lockStack.run lockStack.empty cs).2.mem.length) ∧
      (∀ f, (Heap.chain (lockStack.run lockStack.empty cs).2.mem f
          (lockStack.run lockStack.empty cs).2.head).Nodup) ∧
      Heap.after (lockStack.run lockStack.empty cs).2.mem
          (lockStack.run lockStack.empty cs).2.mem.length
          (lockStack.run lockStack.empty cs).2.head = none) ∧
    (Heap.Valid σ.stack.mem σ.stack.head ∧
      (∀ f x, x ∈ Heap.chain σ.stack.mem f σ.stack.head → x < σ.stack.mem.length) ∧
      (∀ f, (Heap.chain σ.stack.mem f σ.stack.head).Nodup) ∧
      Heap.after σ.stack.mem σ.stack.mem.length σ.stack.head = none ∧
      ∀ x ∈ σ.chain, ∃ v c, Thread.pushDone v c x ∈ σ.threads ∧
        σ.stack.mem.deref x = ⟨c, v⟩) := by
  have hl := lockStack.wf_run lockStack.wf_empty cs
  have hinv := Sys.inv_of_reachable hσ
  exact ⟨⟨hl.2, fun _ _ hx => Heap.chain_valid hl.1 hl.2 hx, fun f => Heap.chain_nodup hl.1 f _,
      Heap.after_valid hl.1 hl.2⟩,
    ⟨hinv.valid, fun _ _ hx => Heap.chain_valid hinv.closed hinv.valid hx,
      fun f => Heap.chain_nodup hinv.closed f _, Heap.after_valid hinv.closed hinv.valid,
      fun _ hx => Sys.chain_node_pushed hinv hx⟩⟩

open occStack in
theorem head_validity_witness :
    Heap.after [⟨none, 7⟩, ⟨none, 8⟩, ⟨some 1, 7⟩] 3 (some 2) = none ∧
    (Heap.chain [⟨none, 7⟩, ⟨none, 8⟩, ⟨some 1, 7⟩] 3 (some 2)).Nodup :=
  have h := head_validity [] [.push 7, .push 8]
    ⟨⟨[⟨none, 7⟩, ⟨none, 8⟩, ⟨some 1, 7⟩], some 2⟩,
      [.pushDone 7 (some 1) 2, .pushDone 8 none 1]⟩
    ⟨[0, 1, 1, 0, 0, 0], by decide⟩
  ⟨h.2.2.2.2.1, h.2.2.2.1 3⟩

/-! ## Schedules: who moves a thread, who moves `head` -/

namespace occStack

theorem Thread.step_of_done {th : Thread} (h : th.done = true) (s : OccStack) :
    th.step s = (th, s) := by
  cases th <;> simp [Thread.done] at h <;> rfl

/-- Only a CAS whose expected pointer is the current `head` changes `head`. -/
theorem Thread.step_changes_head (th : Thread) (s : OccStack) (h : (th.step s).2.head ≠ s.head) :
    th.expected = some s.head := by
  cases th <;>
    simp only [Thread.step, CompareAndSwapPointer, LoadPointer, newNode, Heap.alloc] at h
  · exact absurd rfl h
  · rename_i v c n
    by_cases hc : s.head = c
    · simp [Thread.expected, hc]
    · rw [if_neg hc] at h
      exact absurd rfl h
  · exact absurd rfl h
  · split at h <;> exact absurd rfl h
  · rename_i a v
    by_cases hc : s.head = some a
    · simp [Thread.expected, hc]
    · rw [if_neg hc] at h
      exact absurd rfl h
  · exact absurd rfl h
  · split at h <;> exact absurd rfl h
  · exact absurd rfl h

/-- A thread is before its CAS only as the result of its load, which reads `head` and
leaves it as it is. -/
theorem Thread.step_expected (th : Thread) (s : OccStack) {e : Ptr}
    (h : (th.step s).1.expected = some e) :
    th.expected = none ∧ s.head = e ∧ (th.step s).2.head = s.head := by
  cases th with
  | pushLoad v =>
    simp only [Thread.step, LoadPointer, newNode, Heap.alloc, Thread.expected,
      Option.some.injEq] at h
    exact ⟨rfl, h, rfl⟩
  | popLoad =>
    cases hh : s.head with
    | none => simp [Thread.step, LoadPointer, hh, Thread.expected] at h
    | some a =>
      simp only [Thread.step, LoadPointer, hh, Thread.expected, Option.some.injEq] at h
      refine ⟨rfl, h, ?_⟩
      simp [Thread.step, LoadPointer, hh]
  | pushCas v c n =>
    simp only [Thread.step, CompareAndSwapPointer] at h
    split at h <;> simp [Thread.expected] at h
  | popCas a v =>
    simp only [Thread.step, CompareAndSwapPointer] at h
    split at h <;> simp [Thread.expected] at h
  | peekLoad =>
    simp only [Thread.step, LoadPointer] at h
    split at h <;> simp [Thread.expected] at h
  | pushDone v c n => simp [Thread.step, Thread.expected] at h
  | popDone c v => simp [Thread.step, Thread.expected] at h
  | peekDone c v => simp [Thread.step, Thread.expected] at h

/-- A successful CAS is the last step of its call. -/
theorem Thread.step_of_expected (th : Thread) (s : OccStack)
    (h : th.expected = some s.head) : (th.step s).1.done = true := by
  cases th <;> simp only [Thread.expected, reduceCtorEq, Option.some.injEq] at h
  · simp [Thread.step, CompareAndSwapPointer, h, Thread.done]
  · simp [Thread.step, CompareAndSwapPointer, h, Thread.done]

namespace Sys

theorem run_cons (σ : Sys) (t : Nat) (ts : List Nat) : σ.run (t :: ts) = (σ.step t).run ts :=
  rfl

theorem run_append (σ : Sys) (l l' : List Nat) : σ.run (l ++ l') = (σ.run l).run l' :=
  List.foldl_append _ _ _ _

theorem threads_run_not_mem (σ : Sys) {t : Nat} (mid : List Nat) (ht : t ∉ mid) :
    (σ.run mid).threads[t]? = σ.threads[t]? := by
  induction mid generalizing σ with
  | nil => rfl
  | cons u us ih =>
    rw [run_cons, ih (σ.step u) (fun h => ht (List.mem_cons_of_mem _ h))]
    exact threads_step_ne σ (fun h => ht (h ▸ List.mem_cons_self _ _))

/-- A call that has returned stays returned, with the same result, whoever steps. -/
theorem threads_done_step {σ : Sys} {t : Nat} {th : Thread} (ht : σ.threads[t]? = some th)
    (hd : th.done = true) (u : Nat) : (σ.step u).threads[t]? = some th := by
  by_cases hu : t = u
  · subst hu
    rw [step_of_some ht, Thread.step_of_done hd]
    exact threads_set_self ht
  · rw [threads_step_ne σ hu]
    exact ht

theorem threads_done_run {σ : Sys} {t : Nat} {th : Thread} (ht : σ.threads[t]? = some th)
    (hd : th.done = true) (sched : List Nat) : (σ.run sched).threads[t]? = some th := by
  induction sched generalizing σ with
  | nil => exact ht
  | cons u us ih => exact ih (threads_done_step ht hd u)

theorem step_head {σ : Sys} {u : Nat} (h : (σ.step u).stack.head ≠ σ.stack.head) :
    σ.CasSucceeds u := by
  cases hu : σ.threads[u]? with
  | none => rw [step_of_none hu] at h; exact absurd rfl h
  | some th =>
    rw [step_of_some hu] at h
    exact ⟨th, hu, Thread.step_changes_head th σ.stack h⟩

/-- When `head` differs after a run, some step of the run was a successful CAS. -/
theorem head_changed {σ : Sys} (sched : List Nat)
    (h : (σ.run sched).stack.head ≠ σ.stack.head) :
    ∃ pre u post, sched = pre ++ u :: post ∧ (σ.run pre).CasSucceeds u := by
  induction sched generalizing σ with
  | nil => exact absurd rfl h
  | cons t ts ih =>
    by_cases ht : (σ.step t).stack.head = σ.stack.head
    · rw [run_cons, ← ht] at h
      obtain ⟨pre, u, post, hs, hc⟩ := ih h
      exact ⟨t :: pre, u, post, by rw [hs]; rfl, hc⟩
    · exact ⟨[], t, ts, rfl, step_head ht⟩

theorem cas_step_done {σ : Sys} {u : Nat} (h : σ.CasSucceeds u) :
    ∃ th, (σ.step u).threads[u]? = some th ∧ th.done = true := by
  obtain ⟨th, hu, he⟩ := h
  refine ⟨(th.step σ.stack).1, ?_, Thread.step_of_expected th σ.stack he⟩
  rw [step_of_some hu]
  exact threads_set_self hu

/-- A thread that stands before its CAS got there by its own load step, the last step it
took; at that step `head` was the pointer it now expects. -/
theorem last_load (calls : List Call) (t : Nat) (th : Thread) (e : Ptr) :
    ∀ sched : List Nat, ((init calls).run sched).threads[t]? = some th →
      th.expected = some e →
      ∃ pre mid, sched = pre ++ t :: mid ∧ t ∉ mid ∧ ((init calls).run pre).stack.head = e ∧
        (((init calls).run pre).step t).stack.head = e ∧
        ∃ th0, ((init calls).run pre).threads[t]? = some th0 ∧ th0.expected = none ∧
          (th0.step ((init calls).run pre).stack).1 = th := by
  intro sched
  induction sched using List.reverseRecOn with
  | nil =>
    intro ht he
    have hmem : th ∈ calls.map Thread.start := List.getElem?_mem ht
    obtain ⟨c, _, rfl⟩ := List.mem_map.1 hmem
    cases c <;> simp [Thread.start, Thread.expected] at he
  | append_singleton l u ih =>
    intro ht he
    rw [run_append] at ht
    by_cases hu : t = u
    · subst hu
      change (((init calls).run l).step t).threads[t]? = some th at ht
      cases h0 : ((init calls).run l).threads[t]? with
      | none =>
        rw [step_of_none h0, h0] at ht
        cases ht
      | some th0 =>
        rw [step_of_some h0, threads_set_self h0] at ht
        have hth : (th0.step ((init calls).run l).stack).1 = th := Option.some.inj ht
        rw [← hth] at he
        obtain ⟨h1, h2, h3⟩ := Thread.step_expected th0 _ he
        refine ⟨l, [], rfl, List.not_mem_nil _, h2, ?_, th0, h0, h1, hth⟩
        rw [step_of_some h0]
        exact h3.trans h2
    · change (((init calls).run l).step u).threads[t]? = some th at ht
      rw [threads_step_ne _ hu] at ht
      obtain ⟨pre, mid, hs, hm, hrest⟩ := ih ht he
      refine ⟨pre, mid ++ [u], by rw [hs]; simp, ?_, hrest⟩
      intro hmem
      rcases List.mem_append.1 hmem with h | h
      · exact hm h
      · exact hu (List.mem_singleton.1 h)

end Sys

end occStack

/-! ## Emptiness, progress and termination of `occStack` -/

open occStack in
/-- C12.  `OccStack.Pop` reports emptiness from a single observation: when a `Pop` thread
takes its load step while `head` is nil, that one step makes the call return `-1`; the
thread never stands before a CAS and never loads again, the stack is left as it is, and
whatever steps any threads take afterwards, the call has returned `-1`. -/
theorem pop_empty_single_observation (σ : Sys) (t : Nat) (more : List Nat)
    (ht : σ.threads[t]? = some Thread.popLoad) (hh : σ.stack.head = none) :
    (σ.step t).stack = σ.stack ∧
    (σ.step t).threads[t]? = some (Thread.popDone none (-1)) ∧
    ((σ.step t).run more).threads[t]? = some (Thread.popDone none (-1)) := by
  have hstep : Thread.step .popLoad σ.stack = (.popDone none (-1), σ.stack) := by
    simp [Thread.step, LoadPointer, hh]
  have h1 : (σ.step t).threads[t]? = some (Thread.popDone none (-1)) := by
    rw [Sys.step_of_some ht, hstep]
    exact Sys.threads_set_self ht
  refine ⟨?_, h1, Sys.threads_done_run h1 rfl more⟩
  rw [Sys.step_of_some ht, hstep]

open occStack in
theorem pop_empty_single_observation_witness :
    ((Sys.step ⟨empty, [.popLoad, .pushLoad 5]⟩ 0).run [1, 1, 0, 1]).threads[0]?
      = some (Thread.popDone none (-1)) :=
  (pop_empty_single_observation ⟨empty, [.popLoad, .pushLoad 5]⟩ 0 [1, 1, 0, 1] rfl rfl).2.2

open occStack in
/-- C13 (lock-freedom as a safety property).  Take any interleaving `sched` of any calls on
an empty `OccStack` after which thread `t` stands before a CAS (of `Push` or of `Pop`) that
will fail, because `head` is not the pointer `e` the thread expects.  Then the schedule
splits as `pre`, the load step of `t` that observed `e`, and steps of other threads only,
among them a step of a thread `u` (not `t`) that was a successful CAS on `head`; and the
call of `u` has returned in the state reached.  So every failed attempt is paid for by a
completed operation of another thread. -/
theorem failed_cas_paid_for (calls : List Call) (sched : List Nat) (t : Nat) (th : Thread)
    (e : Ptr) (ht : ((Sys.init calls).run sched).threads[t]? = some th)
    (he : th.expected = some e) (hfail : ((Sys.init calls).run sched).stack.head ≠ e) :
    ∃ pre m1 u m2, sched = pre ++ t :: (m1 ++ u :: m2) ∧ t ∉ m1 ++ u :: m2 ∧ u ≠ t ∧
      ((Sys.init calls).run pre).stack.head = e ∧
      (∃ th0, ((Sys.init calls).run pre).threads[t]? = some th0 ∧ th0.expected = none ∧
        (th0.step ((Sys.init calls).run pre).stack).1 = th) ∧
      ((Sys.init calls).run (pre ++ t :: m1)).CasSucceeds u ∧
      ∃ thu, ((Sys.init calls).run sched).threads[u]? = some thu ∧ thu.done = true := by
  obtain ⟨pre, mid, hs, hm, hpre, hload, hth0⟩ := Sys.last_load calls t th e sched ht he
  have hrun : (Sys.init calls).run sched = (((Sys.init calls).run pre).step t).run mid := by
    rw [hs, Sys.run_append, Sys.run_cons]
  have hne : ((((Sys.init calls).run pre).step t).run mid).stack.head
      ≠ (((Sys.init calls).run pre).step t).stack.head := by
    rw [← hrun, hload]
    exact hfail
  obtain ⟨m1, u, m2, hmid, hcas⟩ := Sys.head_changed mid hne
  have hut : u ≠ t := by
    intro h
    apply hm
    rw [hmid, h]
    exact List.mem_append_right _ (List.mem_cons_self _ _)
  refine ⟨pre, m1, u, m2, by rw [hs, hmid], by rw [← hmid]; exact hm, hut, hpre, hth0, ?_, ?_⟩
  · rw [Sys.run_append, Sys.run_cons]
    exact hcas
  · obtain ⟨thu, h1, h2⟩ := Sys.cas_step_done hcas
    refine ⟨thu, ?_, h2⟩
    rw [hrun, hmid, Sys.run_append, Sys.run_cons]
    exact Sys.threads_done_run h1 h2 m2

open occStack in
theorem failed_cas_paid_for_witness :
    ∃ pre m1 u m2, [0, 1, 1] = pre ++ 0 :: (m1 ++ u :: m2) ∧ 0 ∉ m1 ++ u :: m2 ∧ u ≠ 0 ∧
      ((Sys.init [.push 7, .push 8]).run pre).stack.head = none ∧
      (∃ th0, ((Sys.init [.push 7, .push 8]).run pre).threads[0]? = some th0 ∧
        th0.expected = none ∧
        (th0.step ((Sys.init [.push 7, .push 8]).run pre).stack).1 = .pushCas 7 none 0) ∧
      ((Sys.init [.push 7, .push 8]).run (pre ++ 0 :: m1)).CasSucceeds u ∧
      ∃ thu, ((Sys.init [.push 7, .push 8]).run [0, 1, 1]).threads[u]? = some thu ∧
        thu.done = true :=
  failed_cas_paid_for [.push 7, .push 8] [0, 1, 1] 0 (.pushCas 7 none 0) none
    (by decide) rfl (by decide)

open occStack in
/-- C14 (termination without interference).  For every `OccStack` state and value, `Push`
and `Pop` return within one iteration of their loop, with the result any larger iteration
bound gives, so the sequential methods are total.  On the machine: when thread `t` stands
at the top of a `Push` or `Pop` and, after its load step, other threads step in any way
that leaves `head` at the loaded pointer when `t` moves again, that next step of `t` ends
the call (its CAS succeeds, or the `Pop` had observed nil and returned already). -/
theorem one_iteration_without_interference (s : OccStack) (v : Int) (fuel : Nat) (σ : Sys)
    (t : Nat) (mid : List Nat) (th : Thread)
    (ht : σ.threads[t]? = some th) (hth : th = .pushLoad v ∨ th = .popLoad) (hm : t ∉ mid)
    (hh : ((σ.step t).run mid).stack.head = σ.stack.head) :
    (Push 1 s v = some ⟨s.mem ++ [⟨s.head, v⟩], some s.mem.length⟩ ∧
      Push (fuel + 1) s v = Push 1 s v) ∧
    ((∃ r, Pop 1 s = some r) ∧ Pop (fuel + 1) s = Pop 1 s) ∧
    ∃ th', (((σ.step t).run mid).step t).threads[t]? = some th' ∧ th'.done = true := by
  refine ⟨⟨occ_Push_eq 0 s v, by rw [occ_Push_eq, occ_Push_eq 0]⟩, ?_, ?_⟩
  · cases h : s.head with
    | none => exact ⟨⟨_, occ_Pop_none 0 h⟩, by rw [occ_Pop_none fuel h, occ_Pop_none 0 h]⟩
    | some a => exact ⟨⟨_, occ_Pop_some 0 h⟩, by rw [occ_Pop_some fuel h, occ_Pop_some 0 h]⟩
  · have h1 : (σ.step t).threads[t]? = some (th.step σ.stack).1 := by
      rw [Sys.step_of_some ht]
      exact Sys.threads_set_self ht
    have h2 : ((σ.step t).run mid).threads[t]? = some (th.step σ.stack).1 := by
      rw [Sys.threads_run_not_mem _ mid hm]
      exact h1
    by_cases hd : (th.step σ.stack).1.done = true
    · exact ⟨_, Sys.threads_done_step h2 hd t, hd⟩
    · apply Sys.cas_step_done
      refine ⟨_, h2, ?_⟩
      rw [hh]
      rcases hth with rfl | rfl
      · rfl
      · cases hs : σ.stack.head with
        | none => simp [Thread.step, LoadPointer, hs, Thread.done] at hd
        | some a => simp [Thread.step, LoadPointer, hs, Thread.expected]

open occStack in
theorem one_iteration_without_interference_witness :
    ∃ th', (((Sys.step ⟨empty, [.pushLoad 3, .popLoad]⟩ 0).run [1]).step 0).threads[0]?
      = some th' ∧ th'.done = true :=
  (one_iteration_without_interference empty 3 0 ⟨empty, [.pushLoad 3, .popLoad]⟩ 0 [1]
    (.pushLoad 3) rfl (Or.inl rfl) (by decide) (by decide)).2.2

/-- C15.  Push accepts the sentinel: `Push(-1)` on an empty stack of either implementation
makes the stack non-empty (`head` is not nil), and then both `Peek` and `Pop` return `-1`
although the stack is not empty, and that `Pop` changes the state: it moves `head` from the
node back to nil. -/
theorem sentinel_is_ambiguous :
    ((lockStack.Push lockStack.empty (-1)).head = some 0 ∧
      (lockStack.Peek (lockStack.Push lockStack.empty (-1))).1 = -1 ∧
      (lockStack.Pop (lockStack.Push lockStack.empty (-1))).1 = -1 ∧
      (lockStack.Pop (lockStack.Push lockStack.empty (-1))).2.head = none ∧
      (lockStack.Pop (lockStack.Push lockStack.empty (-1))).2
        ≠ lockStack.Push lockStack.empty (-1)) ∧
    (occStack.Push 1 occStack.empty (-1) = some ⟨[⟨none, -1⟩], some 0⟩ ∧
      (occStack.Peek ⟨[⟨none, -1⟩], some 0⟩).1 = -1 ∧
      occStack.Pop 1 ⟨[⟨none, -1⟩], some 0⟩ = some (-1, ⟨[⟨none, -1⟩], none⟩) ∧
      (⟨[⟨none, -1⟩], none⟩ : occStack.OccStack) ≠ ⟨[⟨none, -1⟩], some 0⟩) := by
  decide

/-! ## testDriver: the benchmark loops and the worker -/

namespace testDriver

theorem wrap64_of_small {x : Int} (h0 : 0 ≤ x) (h1 : x < 2 ^ 63) : wrap64 x = x := by
  unfold wrap64
  rw [Int.emod_eq_of_lt (by omega) (by omega)]
  omega

/-- The first loop of `benchmark` runs its body for `i = 0, 1, ..., dop`. -/
theorem forUpTo_length (n : Nat) (hn : (n : Int) + 1 < 2 ^ 63) :
    ∀ (k i fuel : Nat), i + k = n + 1 → k < fuel →
      (forUpTo (n : Int) fuel (i : Int)).length = k := by
  intro k
  induction k with
  | zero =>
    intro i fuel hi hf
    obtain ⟨fuel, rfl⟩ : ∃ g, fuel = g + 1 := ⟨fuel - 1, by omega⟩
    have : ¬ ((i : Int) ≤ (n : Int)) := by omega
    simp [forUpTo, this]
  | succ k ih =>
    intro i fuel hi hf
    obtain ⟨fuel, rfl⟩ : ∃ g, fuel = g + 1 := ⟨fuel - 1, by omega⟩
    have hle : (i : Int) ≤ (n : Int) := by omega
    have hw : wrap64 ((i : Int) + 1) = ((i + 1 : Nat) : Int) := by
      rw [wrap64_of_small (by omega) (by omega)]
      push_cast
      rfl
    simp only [forUpTo, if_pos hle, List.length_cons, hw]
    rw [ih (i + 1) fuel (by omega) (by omega)]

/-- With `dop` a natural number, `benchmark` starts `dop + 1` workers. -/
theorem spawned_length (n fuel : Nat) (hn : (n : Int) + 1 < 2 ^ 63) :
    (spawned (n : Int) (n + 2 + fuel)).length = n + 1 := by
  have := forUpTo_length n hn (n + 1) 0 (n + 2 + fuel) (by omega) (by omega)
  simpa [spawned] using this

theorem wrap64_one : wrap64 1 = 1 := by decide

theorem wrap64_zero : wrap64 0 = 0 := by decide

theorem intn_one {r : Nat} (h : r ∈ Intn 1) : r = 0 := by
  simp [Intn] at h
  exact h

/-- What one iteration does when `pushPopRand` is `0` and `addedStackSize` is `0` or `1`:
a read keeps `addedStackSize`, a write flips it, popping at `1` and pushing `1` at `0`. -/
theorem iter_cases (writePercent : Int) (w : Worker) (d : Draw) (b : Nat) (hb : b < 2)
    (hw : w.addedStackSize = (b : Int)) (hd : d.pushPopRand = 0) :
    ((Worker.iter writePercent w d).1 = Call.peek ∧
        (Worker.iter writePercent w d).2.addedStackSize = (b : Int)) ∨
      (b = 1 ∧ (Worker.iter writePercent w d).1 = Call.pop ∧
        (Worker.iter writePercent w d).2.addedStackSize = 0) ∨
      (b = 0 ∧ (Worker.iter writePercent w d).1 = Call.push 1 ∧
        (Worker.iter writePercent w d).2.addedStackSize = 1) := by
  by_cases hr : isRead writePercent d.rwRand = true
  · left
    simp [Worker.iter, hr, hw]
  · right
    have hb' : b = 0 ∨ b = 1 := by omega
    rcases hb' with rfl | rfl
    · right
      simp [Worker.iter, hr, hw, hd, wrap64_one]
    · left
      simp [Worker.iter, hr, hw, hd, wrap64_zero]

end testDriver

namespace testDriver

theorem worker_run_cons (writePercent : Int) (w : Worker) (d : Draw) (ds : List Draw) :
    Worker.run writePercent w (d :: ds) =
      ((Worker.iter writePercent w d).1 ::
          (Worker.run writePercent (Worker.iter writePercent w d).2 ds).1,
        (Worker.run writePercent (Worker.iter writePercent w d).2 ds).2) := rfl

/-- With draws in range, the writes of a worker that starts with `addedStackSize = b`
alternate, starting with `Push(1)` at `0` and with `Pop` at `1`; `addedStackSize` stays
`0` or `1` and accounts for the pushes and pops made. -/
theorem run_alternates (writePercent : Int) :
    ∀ (draws : List Draw) (w : Worker) (b : Nat), b < 2 → w.addedStackSize = (b : Int) →
      (∀ d ∈ draws, d.InRange) →
      ((Worker.run writePercent w draws).1.filter isWrite =
          (List.range ((Worker.run writePercent w draws).1.filter isWrite).length).map
            (fun i => if (i + b) % 2 = 0 then Call.push 1 else Call.pop)) ∧
        (Worker.run writePercent w draws).2.addedStackSize =
          (((b + ((Worker.run writePercent w draws).1.filter isWrite).length) % 2 : Nat) : Int) ∧
        ((b : Int) + (Worker.run writePercent w draws).1.count (Call.push 1) =
          (Worker.run writePercent w draws).2.addedStackSize +
            (Worker.run writePercent w draws).1.count Call.pop) := by
  intro draws
  induction draws with
  | nil =>
    intro w b hb hw _
    refine ⟨rfl, ?_, ?_⟩
    · simp only [Worker.run, List.filter_nil, List.length_nil, Nat.add_zero, hw]
      rw [Nat.mod_eq_of_lt hb]
    · simp [Worker.run, hw]
  | cons d ds ih =>
    intro w b hb hw hd
    have hd0 : d.pushPopRand = 0 := intn_one (hd d (List.mem_cons_self _ _)).2
    have hds : ∀ x ∈ ds, x.InRange := fun x hx => hd x (List.mem_cons_of_mem _ hx)
    rw [worker_run_cons]
    rcases iter_cases writePercent w d b hb hw hd0 with ⟨hc, ha⟩ | ⟨rfl, hc, ha⟩ | ⟨rfl, hc, ha⟩
    · obtain ⟨h1, h2, h3⟩ := ih (Worker.iter writePercent w d).2 b hb ha hds
      simp only [hc, isWrite, List.filter_cons_of_neg, Bool.false_eq_true, not_false_eq_true,
        List.count_cons_of_ne, ne_eq, reduceCtorEq]
      exact ⟨h1, h2, h3⟩
    · obtain ⟨h1, h2, h3⟩ := ih (Worker.iter writePercent w d).2 0 (by omega) ha hds
      simp only [hc, isWrite, List.filter_cons_of_pos, List.length_cons, List.count_cons_self,
        List.count_cons_of_ne, ne_eq, reduceCtorEq, not_false_eq_true]
      refine ⟨?_, ?_, ?_⟩
      · rw [List.range_succ_eq_map, List.map_cons, List.map_map]
        congr 1
        rw [h1]
        simp only [List.length_map, List.length_range]
        apply List.map_congr_left
        intro i _
        simp only [Function.comp, Nat.add_zero, Nat.succ_eq_add_one]
        have : (i + 1 + 1) % 2 = i % 2 := by omega
        rw [this]
      · rw [h2]
        congr 1
        omega
      · push_cast at h3 ⊢
        omega
    · obtain ⟨h1, h2, h3⟩ := ih (Worker.iter writePercent w d).2 1 (by omega) ha hds
      simp only [hc, isWrite, List.filter_cons_of_pos, List.length_cons, List.count_cons_self,
        List.count_cons_of_ne, ne_eq, reduceCtorEq, not_false_eq_true]
      refine ⟨?_, ?_, ?_⟩
      · rw [List.range_succ_eq_map, List.map_cons, List.map_map]
        congr 1
      · rw [h2]
        congr 1
        omega
      · push_cast at h3 ⊢
        omega

end testDriver

/-! ## The benchmark claims -/

open testDriver in
/-- C16, evaluated at `dop = 1`.  The first loop of `benchmark` runs for `i = 0` and `i = 1`
and so starts two workers, not one; the second loop receives two values from `resultChan`
and returns their (wrapped) sum, and would block for ever if only one worker had sent its
count.  With `dop = 0` one worker is started. -/
theorem benchmark_spawns_one_more (a b : Int) (fuel : Nat) :
    spawned 1 (fuel + 3) = [0, 1] ∧
    benchmark 1 (fuel + 3) [a, b] = some (wrap64 (wrap64 (0 + a) + b)) ∧
    benchmark 1 (fuel + 3) [a] = none ∧
    spawned 0 (fuel + 2) = [0] := by
  have h1 : wrap64 1 = 1 := by decide
  have h2 : wrap64 2 = 2 := by decide
  refine ⟨?_, ?_, ?_, ?_⟩
  · simp [spawned, forUpTo, h1, h2]
  · simp [benchmark, collect, h1, h2]
  · simp [benchmark, collect, h1]
  · simp [spawned, forUpTo, h1]

open testDriver in
/-- C17, evaluated at `writePercent = 50`.  `rand.Intn(99)` ranges over the 99 values
`0..98` (`99` is not among them), and a worker takes the write path for the 49 values
`0..48`: the fraction of writes is `49/99`, which is not `50/100`. -/
theorem write_fraction_off :
    (Intn 99).length = 99 ∧ 99 ∉ Intn 99 ∧ writeDraws 50 = List.range 49 ∧
    (writeDraws 50).length * 100 ≠ 50 * (Intn 99).length := by
  decide

open testDriver in
/-- C18.  A benchmark worker only pops when it has a push of its own outstanding: for every
sequence of random draws within the ranges of `rand.Intn(99)` and `rand.Intn(1)`, after
the iterations made `addedStackSize` is not negative; an iteration calls `stack.Pop()` only
when `addedStackSize > 0` held before it; and the worker has issued no more Pops than
Pushes, the difference being `addedStackSize`. -/
theorem pop_only_after_push (writePercent : Int) (draws : List Draw)
    (hd : ∀ d ∈ draws, d.InRange) :
    0 ≤ (Worker.run writePercent Worker.start draws).2.addedStackSize ∧
    (∀ pre d post, draws = pre ++ d :: post →
      (Worker.iter writePercent (Worker.run writePercent Worker.start pre).2 d).1 = Call.pop →
      0 < (Worker.run writePercent Worker.start pre).2.addedStackSize) ∧
    (Worker.run writePercent Worker.start draws).1.count Call.pop
      ≤ (Worker.run writePercent Worker.start draws).1.count (Call.push 1) ∧
    ((Worker.run writePercent Worker.start draws).1.count (Call.push 1) : Int)
      = (Worker.run writePercent Worker.start draws).2.addedStackSize
        + (Worker.run writePercent Worker.start draws).1.count Call.pop := by
  obtain ⟨_, h2, h3⟩ := run_alternates writePercent draws Worker.start 0 (by omega) rfl hd
  have h0 : 0 ≤ (Worker.run writePercent Worker.start draws).2.addedStackSize := by
    rw [h2]
    exact Int.ofNat_nonneg _
  refine ⟨h0, ?_, ?_, ?_⟩
  · intro pre d post _ hpop
    unfold Worker.iter at hpop
    by_cases hr : isRead writePercent d.rwRand = true
    · simp [hr] at hpop
    · by_cases hc : d.pushPopRand = 0 ∧
          (Worker.run writePercent Worker.start pre).2.addedStackSize > 0
      · exact hc.2
      · simp [hr, hc] at hpop
  · omega
  · omega

open testDriver in
theorem pop_only_after_push_witness :
    (Worker.run 50 Worker.start [⟨0, 0⟩, ⟨98, 0⟩, ⟨3, 0⟩]).1
      = [Call.push 1, Call.peek, Call.pop] ∧
    0 ≤ (Worker.run 50 Worker.start [⟨0, 0⟩, ⟨98, 0⟩, ⟨3, 0⟩]).2.addedStackSize :=
  ⟨by decide, (pop_only_after_push 50 [⟨0, 0⟩, ⟨98, 0⟩, ⟨3, 0⟩]
    (by simp [Draw.InRange, Intn])).1⟩

open testDriver in
/-- C19.  The push/pop choice of a worker is deterministic: `rand.Intn(1)` can only return
`0`, so for every sequence of draws within range the write operations of a worker are
`Push(1), Pop, Push(1), Pop, ...` in strict alternation starting with `Push(1)`, and
`addedStackSize` is `0` or `1` after every number of iterations. -/
theorem writes_alternate (writePercent : Int) (draws : List Draw)
    (hd : ∀ d ∈ draws, d.InRange) :
    (∀ r ∈ Intn 1, r = 0) ∧
    (Worker.run writePercent Worker.start draws).1.filter isWrite =
      (List.range ((Worker.run writePercent Worker.start draws).1.filter isWrite).length).map
        (fun i => if i % 2 = 0 then Call.push 1 else Call.pop) ∧
    ((Worker.run writePercent Worker.start draws).2.addedStackSize = 0 ∨
      (Worker.run writePercent Worker.start draws).2.addedStackSize = 1) := by
  obtain ⟨h1, h2, _⟩ := run_alternates writePercent draws Worker.start 0 (by omega) rfl hd
  refine ⟨fun r hr => intn_one hr, ?_, ?_⟩
  · simpa using h1
  · rw [h2]
    rcases Nat.mod_two_eq_zero_or_one
      (0 + ((Worker.run writePercent Worker.start draws).1.filter isWrite).length) with h | h
    · left; rw [h]; rfl
    · right; rw [h]; rfl

open testDriver in
theorem writes_alternate_witness :
    (Worker.run 50 Worker.start [⟨0, 0⟩, ⟨98, 0⟩, ⟨3, 0⟩, ⟨7, 0⟩, ⟨60, 0⟩, ⟨1, 0⟩]).1.filter
        isWrite
      = [Call.push 1, Call.pop, Call.push 1, Call.pop] :=
  (writes_alternate 50 [⟨0, 0⟩, ⟨98, 0⟩, ⟨3, 0⟩, ⟨7, 0⟩, ⟨60, 0⟩, ⟨1, 0⟩]
    (by simp [Draw.InRange, Intn])).2.1.trans (by decide)

namespace testDriver

set_option maxRecDepth 100000 in
set_option maxHeartbeats 4000000 in
/-- For every `writePercent` from `0` to `100` the write path is taken for
`writePercent - 1` of the 99 possible draws (for none at `0`). -/
theorem writeDraws_length :
    ∀ wp ∈ List.range 101, (writeDraws (wp : Int)).length = wp - 1 := by
  decide

end testDriver
